import Mathlib

/-!
Verification of the Onyx streaming backend extraction-and-proxy engine.

This file gives a shallow embedding of the relevant parts of
`backend/app/services/stream_manager.py` and
`backend/app/routes/streaming.py`, and proves or refutes the frozen
behavioural claims about them.

Modelling conventions:
* Python `dict` / `OrderedDict` values are ordered association lists
  (Python 3.7+ dicts preserve insertion order; overwriting an existing key
  keeps its position).
* `datetime` timestamps are absolute times in seconds, as `Int`
  (`timedelta(seconds=90)` is `90`, `timedelta(hours=5)` is `18000`);
  `datetime.now()` is passed in explicitly as `now`.
* A field read `d.get(k)` of a possibly missing key is an `Option`;
  for string fields, `none` covers both a missing key and Python `None`
  whenever the source code treats the two alike (noted per field otherwise).
* Async control flow is modelled by explicit outcome parameters: the result
  of an awaited extraction is an `ExtOutcome` argument, and a fired
  `asyncio.wait_for` timeout is a `Bool` argument.
-/

namespace Onyx

/-! ### Ordered-dictionary primitives -/

/-- Python dict lookup, `d.get(k)` / `d[k]` read: the binding of `k` (dicts hold
at most one). On lists built by `dictInsert` from `[]` keys are unique. -/
def dictGet {κ α : Type} [DecidableEq κ] (l : List (κ × α)) (k : κ) : Option α :=
  match l with
  | [] => none
  | (k1, v) :: rest => if k1 = k then some v else dictGet rest k

/-- Python `del d[k]`: remove the binding of `k` (first one, the only one for
genuine dict contents). -/
def eraseKey {κ α : Type} [DecidableEq κ] (l : List (κ × α)) (k : κ) : List (κ × α) :=
  match l with
  | [] => []
  | (k1, v) :: rest => if k1 = k then rest else (k1, v) :: eraseKey rest k

/-- Python `d[k] = v` on a plain dict: overwrite in place if present
(keeping the position), else append at the end. -/
def dictInsert {κ α : Type} [DecidableEq κ] (l : List (κ × α)) (k : κ) (v : α) :
    List (κ × α) :=
  match l with
  | [] => [(k, v)]
  | (k1, v1) :: rest =>
    if k1 = k then (k, v) :: rest else (k1, v1) :: dictInsert rest k v

/-! ### `CachedURL` (stream_manager.py lines 31-45) -/

/-- Cached authorization artifact with pessimistic TTL. -/
structure CachedURL where
  url : String
  expires_at : Int
  content_type : String := "audio/mp4"
  thumbnail : Option String := none
  duration : Option Int := none
  title : Option String := none
  artist : Option String := none
deriving DecidableEq

/-- `CachedURL.is_valid`: still valid with the 90-second safety margin,
`self.expires_at > datetime.now() + timedelta(seconds=90)`. -/
def CachedURL.is_valid (c : CachedURL) (now : Int) : Bool :=
  c.expires_at > now + 90

/-! ### `LRUCache` (stream_manager.py lines 157-174)

`LRUCache` subclasses `OrderedDict`; the list order below is the
`OrderedDict` order, head = oldest, last = most recently put/moved.
-/

/-- `LRUCache.__setitem__`: `move_to_end` if present, write the value (at the
end), then if over capacity delete the first (oldest) key. -/
def lruSetItem {κ α : Type} [DecidableEq κ] (maxsize : Nat) (l : List (κ × α))
    (k : κ) (v : α) : List (κ × α) :=
  let l1 := if (dictGet l k).isSome then eraseKey l k ++ [(k, v)] else l ++ [(k, v)]
  if l1.length > maxsize then l1.tail else l1

/-- `LRUCache.__getitem__` (bracket access): read the value and
`move_to_end`. Note: `StreamManager.get_cached_url` never calls this — it
reads through `dict.get`, which does not invoke the override. -/
def lruGetItem {κ α : Type} [DecidableEq κ] (l : List (κ × α)) (k : κ) :
    Option (α × List (κ × α)) :=
  match dictGet l k with
  | none => none
  | some v => some (v, eraseKey l k ++ [(k, v)])

/-- `StreamManager.__init__`: `self.cache = LRUCache(maxsize=300)`. -/
def streamCacheMaxsize : Nat := 300

/-! ### `StreamManager.get_cached_url` (stream_manager.py lines 351-366) -/

/-- `get_cached_url`: `self.cache.get(video_id)` (a plain `dict.get`, which
bypasses the LRU `__getitem__` override, so no recency update), then return
the entry if `is_valid`, else delete it and return `None`. Returns the
result together with the cache left behind. -/
def get_cached_url (now : Int) (cache : List (String × CachedURL))
    (video_id : String) : Option CachedURL × List (String × CachedURL) :=
  match dictGet cache video_id with
  | none => (none, cache)
  | some c =>
    if c.is_valid now then (some c, cache)
    else (none, eraseKey cache video_id)

/-! ### Format selection (stream_manager.py lines 48-153) -/

/-- One entry of `info["formats"]`, restricted to the fields
`select_progressive_audio` reads.
* `format_id` is `str(fmt.get("format_id", ""))` (already string-converted).
* `protocol` is `fmt.get("protocol", "")` with a missing key as `""`.
* `acodec`: `none` models both a missing key and Python `None` (the source
  treats them alike: `fmt.get("acodec") in (None, "none", "")`).
* `vcodec`: `none` models a missing key (which reads as `""` via
  `fmt.get("vcodec", "")`); a present Python `None` is modelled as
  `some "None"`, matching `str(None)`.
* `url`: `none` models a missing key or Python `None`; `some ""` is also
  falsy for the `if not fmt.get("url")` check.
* `ext` is `fmt.get("ext", ...)`, used only for the MIME fallback. -/
structure MediaFormat where
  format_id : String
  protocol : String := ""
  acodec : Option String := none
  vcodec : Option String := none
  url : Option String := none
  ext : Option String := none
deriving DecidableEq

/-- The fields of the extraction result dictionary that the engine reads. -/
structure ExtractInfo where
  formats : List MediaFormat := []
  thumbnail : Option String := none
  duration : Option Int := none
  title : Option String := none
  uploader : Option String := none
  channel : Option String := none
deriving DecidableEq

/-- Browser-safe progressive format IDs (itags) in priority order. -/
def PROGRESSIVE_ITAGS : List String := ["140", "251", "250", "249", "139"]

/-- MIME type mapping for browser playback. -/
def ITAG_MIME_TYPES : List (String × String) :=
  [("140", "audio/mp4"), ("139", "audio/mp4"), ("251", "audio/webm"),
   ("250", "audio/webm"), ("249", "audio/webm")]

/-- `fmt.get("acodec") in (None, "none", "")`. -/
def acodecMissing (a : Option String) : Bool :=
  match a with
  | none => true
  | some s => s = "none" || s = ""

/-- `not fmt.get("url")`: missing, `None` or empty string. -/
def urlMissing (u : Option String) : Bool :=
  match u with
  | none => true
  | some s => s = ""

/-- The filter applied inside the `format_lookup` loop of
`select_progressive_audio`: hard-reject HLS protocols, require `https`,
require an audio codec and a URL. -/
def formatEligible (f : MediaFormat) : Bool :=
  !(f.protocol = "m3u8_native" || f.protocol = "m3u8") &&
    f.protocol = "https" && !acodecMissing f.acodec && !urlMissing f.url

/-- The `format_lookup` construction loop: insert each eligible format,
keyed by `format_id` (a later duplicate id overwrites in place). -/
def buildFormatLookup (formats : List MediaFormat) : List (String × MediaFormat) :=
  formats.foldl
    (fun lookup f => if formatEligible f then dictInsert lookup f.format_id f else lookup)
    []

/-- The `for itag in PROGRESSIVE_ITAGS` selection loop: first preferred itag
present in the lookup wins. -/
def pickPreferredItag (lookup : List (String × MediaFormat)) :
    List String → Option MediaFormat
  | [] => none
  | itag :: rest =>
    match dictGet lookup itag with
    | some f => some f
    | none => pickPreferredItag lookup rest

/-- `str(fmt.get("vcodec", "")).lower() == "none"`. -/
def isAudioOnlyVcodec (f : MediaFormat) : Bool :=
  ((f.vcodec.getD "").toLower) = "none"

/-- The fallback loop: first lookup entry whose vcodec reads as "none". -/
def pickAudioOnly : List (String × MediaFormat) → Option MediaFormat
  | [] => none
  | (_, f) :: rest => if isAudioOnlyVcodec f then some f else pickAudioOnly rest

/-- `select_progressive_audio` (stream_manager.py lines 63-153): build the
eligible lookup, try the preferred itags, fall back to the first audio-only
entry, last-resort to the first entry, else `None`. (Print statements and
the in-place `_mime_type` enrichment of the selected dict are omitted; the
enrichment value is `formatMime` below.) -/
def select_progressive_audio (info : ExtractInfo) : Option MediaFormat :=
  let lookup := buildFormatLookup info.formats
  match pickPreferredItag lookup PROGRESSIVE_ITAGS with
  | some f => some f
  | none =>
    match pickAudioOnly lookup with
    | some f => some f
    | none => lookup.head?.map Prod.snd

/-- The `_mime_type` enrichment: `ITAG_MIME_TYPES` by id, else by extension
(`"audio/mp4"` for `m4a`, `"audio/webm"` otherwise). Callers read
`fmt.get("_mime_type", "audio/mp4")`, which equals this whenever the format
came out of `select_progressive_audio`. -/
def formatMime (f : MediaFormat) : String :=
  match dictGet ITAG_MIME_TYPES f.format_id with
  | some m => m
  | none => if f.ext.getD "m4a" = "m4a" then "audio/mp4" else "audio/webm"

/-! Spec-side definitions for the format-selection claims. -/

/-- Modelled from the spec wording of C3: a candidate whose transport
protocol is eligible for byte-range proxying (the non-segmented, plain-https
protocol). -/
def specProtocolEligible (f : MediaFormat) : Bool :=
  f.protocol = "https"

/-- Modelled from the spec wording of C3: a candidate that carries an audio
track. -/
def specAudioBearing (f : MediaFormat) : Bool :=
  !acodecMissing f.acodec

/-- Modelled from the spec wording of C9: selection over the eligible
candidates by the fixed preference list, then first audio-only, then first
with any audio. Stated with library combinators, to be compared with the
source-translated `select_progressive_audio`. -/
def claimSelect (lookup : List (String × MediaFormat)) : Option MediaFormat :=
  match PROGRESSIVE_ITAGS.findSome? (fun itag => dictGet lookup itag) with
  | some f => some f
  | none =>
    match (lookup.find? (fun kv => isAudioOnlyVcodec kv.2)).map Prod.snd with
    | some f => some f
    | none => lookup.head?.map Prod.snd

/-! ### `ExtractionTask` and the background priority queue
(stream_manager.py lines 22-28; `asyncio.PriorityQueue` stores tasks in a
CPython `heapq` binary heap — `put` is `heappush`, `get` is `heappop`).
-/

/-- `ExtractionTask`: `@dataclass(order=True)` with `video_id`, `timestamp`
and `future` all marked `field(compare=False)`, so the generated comparison
uses the tuple `(priority,)` only. The future is modelled separately (in the
engine state); `timestamp` is the `time.time()` enqueue instant, modelled as
a monotone counter — it takes part in no computation. -/
structure ExtractionTask where
  priority : Int
  video_id : String
  timestamp : Nat
deriving DecidableEq, Inhabited

/-- The dataclass-generated `<` on `ExtractionTask`: compares `(priority,)`
(every other field is `compare=False`). -/
def taskLt (a b : ExtractionTask) : Bool :=
  a.priority < b.priority

/-- Read the heap array at an index (out of range yields the default task;
the heap functions only read in-range indices). -/
def taskAt (l : List ExtractionTask) (i : Nat) : ExtractionTask :=
  (l[i]?).getD default

/-- The priority stored at a heap index. -/
def keyAt (l : List ExtractionTask) (i : Nat) : Int :=
  (taskAt l i).priority

/-- CPython `heapq._siftdown(heap, 0, pos)`: bubble `newitem` up from `pos`
toward the root, moving larger parents down, and place it.  Here
`(pos - 1) / 2` is `parentpos` and `taskAt l ((pos - 1) / 2)` is `parent`.
(`startpos` is always `0` in the `heappush`/`heappop` call sites used by
`asyncio.PriorityQueue`.) -/
def siftdownAux (l : List ExtractionTask) (pos : Nat) (newitem : ExtractionTask) :
    List ExtractionTask :=
  if h : 0 < pos then
    if taskLt newitem (taskAt l ((pos - 1) / 2)) then
      siftdownAux (l.set pos (taskAt l ((pos - 1) / 2))) ((pos - 1) / 2) newitem
    else l.set pos newitem
  else l.set pos newitem
termination_by pos
decreasing_by
  have := Nat.div_le_self (pos - 1) 2
  omega

/-- The child `_siftup` walks into: the right child `2*pos+2` when it exists
and is not greater than the left child (`not heap[childpos] < heap[rightpos]`),
else the left child `2*pos+1`. -/
def chooseChild (l : List ExtractionTask) (pos : Nat) : Nat :=
  if 2 * pos + 2 < l.length && !taskLt (taskAt l (2 * pos + 1)) (taskAt l (2 * pos + 2))
  then 2 * pos + 2 else 2 * pos + 1

/-- CPython `heapq._siftup(heap, pos)`: walk the hole at `pos` down to a
leaf, always moving the chosen (smaller) child up, then bubble `newitem`
back up with `_siftdown`. -/
def siftupAux (l : List ExtractionTask) (pos : Nat) (newitem : ExtractionTask) :
    List ExtractionTask :=
  if h : 2 * pos + 1 < l.length then
    siftupAux (l.set pos (taskAt l (chooseChild l pos))) (chooseChild l pos) newitem
  else siftdownAux (l.set pos newitem) pos newitem
termination_by l.length - pos
decreasing_by
  simp only [chooseChild, List.length_set]
  split <;> omega

/-- CPython `heapq.heappush` (= `asyncio.PriorityQueue.put`):
append, then sift the new item up from the last position. -/
def heappush (l : List ExtractionTask) (item : ExtractionTask) :
    List ExtractionTask :=
  siftdownAux (l ++ [item]) l.length item

/-- CPython `heapq.heappop` (= `asyncio.PriorityQueue.get`): pop the last
element; if the heap is still nonempty, take the root as the result, move
the last element to the root and sift it down. `none` models the
`IndexError` on an empty heap (the queue never pops when empty). -/
def heappop (l : List ExtractionTask) :
    Option (ExtractionTask × List ExtractionTask) :=
  match l.getLast? with
  | none => none
  | some lastelt =>
    let heap1 := l.dropLast
    match heap1.head? with
    | none => some (lastelt, [])
    | some returnitem => some (returnitem, siftupAux (heap1.set 0 lastelt) 0 lastelt)

/-- The binary min-heap invariant of the CPython heap array: every non-root
entry is at least its parent, comparing by the dataclass ordering (priority
only). -/
def IsHeap (l : List ExtractionTask) : Prop :=
  ∀ j, j < l.length → 0 < j → keyAt l ((j - 1) / 2) ≤ keyAt l j

instance (l : List ExtractionTask) : Decidable (IsHeap l) :=
  inferInstanceAs (Decidable (∀ j, j < l.length → 0 < j → _))

/-! ### The `StreamManager` engine state
(stream_manager.py lines 177-496).

`asyncio` runs these coroutines cooperatively on one thread: code between
`await` points is atomic.  Each modelled operation below is one such atomic
segment (in `get_stream_url`, `prefetch` and `get_or_queue` the pending-table
check and insertion happen with no intervening `await`, so they form one
segment; the worker loop's and urgent path's cache double-checks collapse
when no other step is interleaved).  Futures are modelled as numbered result
slots in the state; the queue's heap order is irrelevant to these claims, so
`queueTasks` records the queued `(slot, video_id)` pairs in FIFO order.
-/

/-- The possible states of an `asyncio.Future` result slot: unsettled,
cancelled (`future.done()` is true but no result), or settled with a
`CachedURL` or an exception message. -/
inductive SlotVal
  | unsettled
  | cancelled
  | ok (c : CachedURL)
  | err (msg : String)
deriving DecidableEq

/-- `if not task.future.done(): task.future.set_result/set_exception(...)`. -/
def settleSlot (slots : List (Nat × SlotVal)) (sid : Nat) (v : SlotVal) :
    List (Nat × SlotVal) :=
  match dictGet slots sid with
  | some SlotVal.unsettled => dictInsert slots sid v
  | _ => slots

/-- The mutable state of the `StreamManager` singleton that the claims
concern: the LRU cache, the `pending_tasks` dedup table (video id to slot),
the queued tasks and the slot table. -/
structure EngineState where
  cache : List (String × CachedURL)
  pending : List (String × Nat)
  queueTasks : List (Nat × String)
  slots : List (Nat × SlotVal)
  nextId : Nat
deriving DecidableEq

/-- The empty engine state at startup. -/
def initialEngine : EngineState :=
  { cache := [], pending := [], queueTasks := [], slots := [], nextId := 0 }

/-- What a (non-urgent) caller of `get_stream_url` observes on its atomic
entry segment: a cache hit, or the slot it joined / created. -/
inductive ReqOutcome
  | cachedHit (c : CachedURL)
  | joined (slot : Nat)
deriving DecidableEq

/-- `get_stream_url` steps 1/3/4 for `priority != 1` (also the shared logic
of `prefetch` and `get_or_queue`): check the cache, else join the pending
slot for this video id, else create a task, register it in
`pending_tasks` and put it on the queue. -/
def requestBG (s : EngineState) (now : Int) (video_id : String) :
    ReqOutcome × EngineState :=
  match get_cached_url now s.cache video_id with
  | (some c, cache1) => (.cachedHit c, { s with cache := cache1 })
  | (none, cache1) =>
    match dictGet s.pending video_id with
    | some sid => (.joined sid, { s with cache := cache1 })
    | none =>
      let sid := s.nextId
      (.joined sid,
        { s with
          cache := cache1
          pending := s.pending ++ [(video_id, sid)]
          queueTasks := s.queueTasks ++ [(sid, video_id)]
          slots := s.slots ++ [(sid, SlotVal.unsettled)]
          nextId := sid + 1 })

/-- Python `a or b` on optional strings: empty string is falsy. -/
def pyOr (a b : Option String) : Option String :=
  match a with
  | some st => if st = "" then b else some st
  | none => b

/-- The `CachedURL` built by `_do_extraction` / `_urgent_extract` on success:
expiry a fixed 5 hours (18000 s) from now, MIME type from the selection. -/
def mkArtifact (now : Int) (info : ExtractInfo) (f : MediaFormat) (u : String) :
    CachedURL :=
  { url := u
    expires_at := now + 18000
    content_type := formatMime f
    thumbnail := info.thumbnail
    duration := info.duration
    title := info.title
    artist := pyOr info.uploader info.channel }

/-- The outcome of the awaited `extract_info` call in a worker thread. -/
inductive ExtOutcome
  | completed (info : ExtractInfo)
  | failed (msg : String)
deriving DecidableEq

/-- `_do_extraction` (stream_manager.py lines 298-349): on success select a
format, build the artifact, write the cache, then settle the slot; on any
failure settle the slot with the exception; in all cases the `finally`
block deletes the `pending_tasks` entry. -/
def do_extraction (s : EngineState) (now : Int) (sid : Nat) (video_id : String)
    (out : ExtOutcome) : EngineState :=
  let s1 :=
    match out with
    | .failed m => { s with slots := settleSlot s.slots sid (.err m) }
    | .completed info =>
      match select_progressive_audio info with
      | none =>
        let e := SlotVal.err ("No progressive audio format available for " ++ video_id)
        { s with slots := settleSlot s.slots sid e }
      | some f =>
        match f.url with
        | none => { s with slots := settleSlot s.slots sid (.err "Selected format has no URL") }
        | some u =>
          if u = "" then
            { s with slots := settleSlot s.slots sid (.err "Selected format has no URL") }
          else
            let art := mkArtifact now info f u
            { s with
              cache := lruSetItem streamCacheMaxsize s.cache video_id art
              slots := settleSlot s.slots sid (.ok art) }
  { s1 with pending := eraseKey s1.pending video_id }

/-- One `_worker_loop` iteration (stream_manager.py lines 262-296) for the
dequeued task `(sid, video_id)`: if the cache turned valid while the task
waited, settle the slot from the cache and skip — note this skip path does
NOT remove the `pending_tasks` entry — otherwise run `_do_extraction`. -/
def workerStep (s : EngineState) (now : Int) (sid : Nat) (video_id : String)
    (out : ExtOutcome) : EngineState :=
  if (sid, video_id) ∈ s.queueTasks then
    let s1 := { s with queueTasks := s.queueTasks.erase (sid, video_id) }
    match get_cached_url now s1.cache video_id with
    | (some c, cache1) =>
      { s1 with cache := cache1, slots := settleSlot s1.slots sid (.ok c) }
    | (none, cache1) => do_extraction { s1 with cache := cache1 } now sid video_id out
  else s

/-- What `asyncio.wait_for(future, timeout)` delivers to a waiting caller of
`get_stream_url`: a raised `TimeoutError` when the timeout fires (the
source converts `asyncio.TimeoutError` into a `TimeoutError` with this
message), else the slot's settled value; `none` while still unsettled. -/
inductive WaitResult
  | value (c : CachedURL)
  | errRaised (msg : String)
  | timeoutError (msg : String)
  | cancelledError
deriving DecidableEq

/-- The caller-side wait on a joined slot. -/
def awaitFuture (slots : List (Nat × SlotVal)) (sid : Nat) (timedOut : Bool)
    (video_id : String) : Option WaitResult :=
  if timedOut then
    some (.timeoutError ("Extraction for " ++ video_id ++ " timed out"))
  else
    match dictGet slots sid with
    | some (.ok c) => some (.value c)
    | some (.err m) => some (.errRaised m)
    | some .cancelled => some .cancelledError
    | _ => none

/-- The caller-visible outcome of `_urgent_extract`. -/
inductive UrgentOutcome
  | hit (c : CachedURL)
  | ok (c : CachedURL)
  | timeoutErr (msg : String)
  | errRaised (msg : String)
deriving DecidableEq

/-- `_urgent_extract` (stream_manager.py lines 402-461): cache check, cache
double-check under the urgent semaphore, then the extraction awaited under
`asyncio.wait_for`.  When the timeout fires (`timedOut`), the coroutine is
cancelled at that `await`: the code after it — format selection and the
cache write — never runs, and the caller gets a `TimeoutError`.  Otherwise
selection failures raise (`ValueError` in the source), and success writes
the cache and returns the artifact. -/
def urgent_extract (s : EngineState) (now : Int) (video_id : String)
    (timedOut : Bool) (out : ExtOutcome) : UrgentOutcome × EngineState :=
  match get_cached_url now s.cache video_id with
  | (some c, cache1) => (.hit c, { s with cache := cache1 })
  | (none, cache1) =>
    match get_cached_url now cache1 video_id with
    | (some c, cache2) => (.hit c, { s with cache := cache2 })
    | (none, cache2) =>
      if timedOut then
        (.timeoutErr ("Urgent extraction for " ++ video_id ++ " timed out"),
          { s with cache := cache2 })
      else
        match out with
        | .failed m => (.errRaised m, { s with cache := cache2 })
        | .completed info =>
          match select_progressive_audio info with
          | none =>
            (.errRaised ("No progressive audio format available for " ++ video_id),
              { s with cache := cache2 })
          | some f =>
            match f.url with
            | none => (.errRaised "Selected format has no URL", { s with cache := cache2 })
            | some u =>
              if u = "" then
                (.errRaised "Selected format has no URL", { s with cache := cache2 })
              else
                let art := mkArtifact now info f u
                (.ok art,
                  { s with cache := lruSetItem streamCacheMaxsize cache2 video_id art })

/-! ### The media proxy (`routes/streaming.py`, `_proxy_stream`,
lines 370-479). -/

/-- The upstream (signed-URL) HTTP response as the proxy sees it. -/
structure UpstreamResponse where
  status_code : Nat
  headers : List (String × String) := []
deriving DecidableEq

/-- What the route handler ultimately delivers for one proxied request. -/
inductive ProxyResult
  | streaming (status_code : Nat) (media_type : String)
      (headers : List (String × String))
  | httpError (status_code : Nat) (detail : String)
deriving DecidableEq

/-- The status code the caller receives. -/
def ProxyResult.statusOf : ProxyResult → Nat
  | .streaming st _ _ => st
  | .httpError st _ => st

/-- The response headers forwarded verbatim when streaming. -/
def PASSTHROUGH_HEADERS : List String :=
  ["Content-Length", "Content-Range", "Accept-Ranges", "Last-Modified", "ETag"]

/-- The fixed response headers set by the proxy. -/
def baseRespHeaders : List (String × String) :=
  [("Cache-Control", "no-cache"),
   ("X-Content-Type-Options", "nosniff"),
   ("Access-Control-Allow-Origin", "*"),
   ("Access-Control-Expose-Headers",
    "Content-Length, Content-Range, Content-Type, Accept-Ranges")]

/-- The detail string built for an upstream error status, with the
IP-mismatch annotation appended for 403. -/
def upstreamDetail (status : Nat) : String :=
  let d := "Upstream " ++ toString status ++ " from YouTube"
  if status = 403 then
    d ++ ". This likely means the streaming IP does not match the extraction IP (IP-Locking)."
  else d

/-- A full run of `_proxy_stream` for one upstream response: the delivered
result plus whether the upstream response and the `httpx` client were
closed on that path. -/
structure ProxyRun where
  result : ProxyResult
  upstreamClosed : Bool
  clientClosed : Bool
deriving DecidableEq

/-- `_proxy_stream` (routes/streaming.py lines 370-479), after the upstream
request has produced `resp`.  For `status_code >= 400` the code closes the
response and the client and raises `HTTPException(status_code, detail)` —
but that raise happens inside the function's own `try`, whose trailing
`except Exception as e` (line 477) catches it, closes the client again and
raises `HTTPException(500, "Stream proxy error: " + str(e))`; Starlette
renders `str(HTTPException)` as `"<status>: <detail>"`.  For statuses below
400 the passthrough whitelist headers are forwarded and the body streamed
with the upstream status; the stream generator's `finally` closes both
handles on every exit. -/
def proxy_stream (resp : UpstreamResponse) (known_content_type : String) :
    ProxyRun :=
  if resp.status_code ≥ 400 then
    let detail := upstreamDetail resp.status_code
    let strE := toString resp.status_code ++ ": " ++ detail
    { result := .httpError 500 ("Stream proxy error: " ++ strE)
      upstreamClosed := true
      clientClosed := true }
  else
    let fwd := PASSTHROUGH_HEADERS.foldl
      (fun acc h =>
        match dictGet resp.headers h with
        | some v => acc ++ [(h, v)]
        | none => acc)
      baseRespHeaders
    let ct := (dictGet resp.headers "Content-Type").getD known_content_type
    { result := .streaming resp.status_code ct fwd
      upstreamClosed := true
      clientClosed := true }

/-! ### The pipe fallback (`routes/streaming.py`, `_ytdlp_pipe_stream`,
lines 166-367). -/

/-- The outcome of the bounded first-chunk read
`asyncio.wait_for(process.stdout.read(8192), timeout=30.0)`
for one strategy attempt. -/
inductive FirstChunkRead
  | chunk (bytes : List (Fin 256))
  | readTimeout
deriving DecidableEq

/-- Container sniffing from the first bytes: OggS, the EBML/webm magic, else
the mp4 default. -/
def sniffContentType (firstChunk : List (Fin 256)) : String :=
  if firstChunk.take 4 = [(0x4F : Fin 256), 0x67, 0x67, 0x53] then "audio/ogg"
  else if firstChunk.take 4 = [(0x1A : Fin 256), 0x45, 0xDF, 0xA3] then "audio/webm"
  else "audio/mp4"

/-- How one strategy attempt ends. -/
inductive StrategyOutcome
  | succeeded (content_type : String)
  | tryNext (lastError : String)
deriving DecidableEq

/-- One strategy attempt with its process-cleanup bookkeeping:
`processReaped` records whether the exit path reaches a `kill()`/`wait()`
(directly, or through the stream generator's `finally`). -/
structure StrategyRun where
  outcome : StrategyOutcome
  processReaped : Bool
deriving DecidableEq

/-- One strategy attempt of `_ytdlp_pipe_stream` after the subprocess
spawned, driven by the first-chunk read:
* an empty first chunk reads stderr, kills and reaps the process, and moves
  to the next strategy;
* a nonempty first chunk streams (the generator's `finally` kills and reaps
  on success, error and client disconnect alike);
* an `asyncio.TimeoutError` on the first-chunk read is handled by
  `except asyncio.TimeoutError: ... continue` (lines 348-352), which moves
  to the next strategy WITHOUT killing or reaping the spawned process. -/
def runStrategy (read1 : FirstChunkRead) (stderrText : String) : StrategyRun :=
  match read1 with
  | .readTimeout => { outcome := .tryNext "timed out", processReaped := false }
  | .chunk [] => { outcome := .tryNext stderrText, processReaped := true }
  | .chunk bs => { outcome := .succeeded (sniffContentType bs), processReaped := true }

/-! ### Concrete runs used by individual claims -/

/-- A typical eligible itag-140 format as returned by extraction. -/
def c1Fmt : MediaFormat :=
  { format_id := "140", protocol := "https", acodec := some "mp4a.40.2",
    vcodec := some "none", url := some "https://cdn.example/a", ext := some "m4a" }

/-- An extraction result holding exactly the format above. -/
def c1Info : ExtractInfo := { formats := [c1Fmt] }

/-- The artifact the engine builds from `c1Info` at time 0. -/
def c1Art : CachedURL := mkArtifact 0 c1Info c1Fmt "https://cdn.example/a"

/-- C1 trace, step 1: a background (priority 3) request for the uncached
track "t" creates slot 0 and queues one task. -/
def c1S1 : EngineState := (requestBG initialEngine 0 "t").2

/-- C1 trace, step 2: an urgent (priority 1) request for the same track
resolves it through the urgent path and fills the cache. -/
def c1S2 : EngineState := (urgent_extract c1S1 0 "t" false (.completed c1Info)).2

/-- C1 trace, step 3: the worker dequeues the queued task, finds the cache
valid, settles slot 0 from the cache and skips — leaving the
`pending_tasks` entry for "t" in place. -/
def c1S3 : EngineState := workerStep c1S2 0 0 "t" (.failed "unused")

/-- A candidate with the eligible protocol and an audio codec but an empty
URL string (falsy for `if not fmt.get("url")`). -/
def c3Format : MediaFormat :=
  { format_id := "140", protocol := "https", acodec := some "mp4a.40.2",
    vcodec := some "none", url := some "" }

/-- An extraction result holding exactly the candidate above. -/
def c3Info : ExtractInfo := { formats := [c3Format] }

/-- A valid artifact used in the cache-recency runs. -/
def c5ArtA : CachedURL := { url := "ua", expires_at := 1000 }

/-- A second valid artifact used in the cache-recency runs. -/
def c5ArtB : CachedURL := { url := "ub", expires_at := 1000 }

/-- A two-entry authorization cache built by two puts: "a" oldest,
"b" most recent. -/
def c5Cache : List (String × CachedURL) :=
  lruSetItem streamCacheMaxsize (lruSetItem streamCacheMaxsize [] "a" c5ArtA) "b" c5ArtB

/-- An artifact whose expiry (100) is within 90 seconds of time 50. -/
def c2Art : CachedURL := { url := "u", expires_at := 100 }

/-- Folding `LRUCache.__setitem__` over a list of insertions. -/
def lruPutAll {κ α : Type} [DecidableEq κ] (maxsize : Nat)
    (l : List (κ × α)) (kvs : List (κ × α)) : List (κ × α) :=
  kvs.foldl (fun c kv => lruSetItem maxsize c kv.1 kv.2) l

/-- Distinct track-id strings for the capacity run: `n` letters "a". -/
def keyOfLen (n : Nat) : String :=
  String.mk (List.replicate n 'a')

/-- 301 insertions with pairwise distinct keys. -/
def c5Kvs301 : List (String × CachedURL) :=
  (List.range 301).map (fun n => (keyOfLen n, c5ArtA))

/-- Three queue entries: two of priority 2 (enqueued in timestamp order),
then one of priority 1. -/
def c8TaskA : ExtractionTask := { priority := 2, video_id := "a", timestamp := 0 }

/-- Second equal-priority task, enqueued after `c8TaskA`. -/
def c8TaskB : ExtractionTask := { priority := 2, video_id := "b", timestamp := 1 }

/-- The later priority-1 task. -/
def c8TaskC : ExtractionTask := { priority := 1, video_id := "c", timestamp := 2 }

/-- The queue heap after pushing `c8TaskA`, `c8TaskB`, `c8TaskC`. -/
def c8Heap : List ExtractionTask :=
  heappush (heappush (heappush [] c8TaskA) c8TaskB) c8TaskC

/-- A 300-entry cache with pairwise distinct keys, exactly at capacity. -/
def c5Cache300 : List (String × CachedURL) :=
  (List.range 300).map (fun n => (keyOfLen n, c5ArtA))

/-- Two-task heap used by the C8 witness. -/
def c8WTop : ExtractionTask := { priority := 1, video_id := "x", timestamp := 0 }

/-- The lower-priority task of the C8 witness heap. -/
def c8WRest : ExtractionTask := { priority := 2, video_id := "y", timestamp := 1 }

/-- The C8 witness heap. -/
def c8WHeap : List ExtractionTask := [c8WTop, c8WRest]

/-! ## Helper lemmas -/

/-- A key that is not among the stored keys looks up to nothing. -/
theorem dictGet_eq_none_of_not_mem {κ α : Type} [DecidableEq κ]
    (l : List (κ × α)) (k : κ) (h : k ∉ l.map Prod.fst) : dictGet l k = none := by
  induction l with
  | nil => rfl
  | cons hd tl ih =>
    obtain ⟨k1, v1⟩ := hd
    simp only [List.map_cons, List.mem_cons] at h
    push_neg at h
    simp only [dictGet, if_neg (Ne.symm h.1)]
    exact ih h.2

/-- Looking up an erased key fails when the association list has no
duplicate keys (always true of genuine dict contents). -/
theorem dictGet_eraseKey_self {κ α : Type} [DecidableEq κ]
    (l : List (κ × α)) (k : κ) (hnd : (l.map Prod.fst).Nodup) :
    dictGet (eraseKey l k) k = none := by
  induction l with
  | nil => rfl
  | cons hd tl ih =>
    obtain ⟨k1, v1⟩ := hd
    simp only [List.map_cons, List.nodup_cons] at hnd
    by_cases hk : k1 = k
    · subst hk
      simp only [eraseKey, if_pos rfl]
      exact dictGet_eq_none_of_not_mem tl k1 hnd.1
    · simp only [eraseKey, if_neg hk, dictGet, if_neg hk]
      exact ih hnd.2

/-! ## Claim theorems -/

/-- C2: a cache `get` never returns an artifact whose `expires_at` is within
90 seconds of now — it returns absent and removes the entry from the cache
as a side effect — and `get` also returns absent for never-seen keys. -/
theorem cache_get_pessimistic_expiry (now : Int)
    (cache : List (String × CachedURL)) (tid : String)
    (hnd : (cache.map Prod.fst).Nodup) :
    (dictGet cache tid = none → get_cached_url now cache tid = (none, cache)) ∧
    (∀ a, dictGet cache tid = some a → a.expires_at ≤ now + 90 →
      (get_cached_url now cache tid).1 = none ∧
      dictGet (get_cached_url now cache tid).2 tid = none) := by
  constructor
  · intro h
    simp only [get_cached_url, h]
  · intro a ha hexp
    have hv : a.is_valid now = false := by
      simp only [CachedURL.is_valid, decide_eq_false_iff_not, not_lt]
      omega
    constructor
    · simp only [get_cached_url, ha, hv, Bool.false_eq_true, if_false]
    · simp only [get_cached_url, ha, hv, Bool.false_eq_true, if_false]
      exact dictGet_eraseKey_self cache tid hnd

/-- Witness for C2: a one-entry cache whose artifact expires at 100, read at
time 50 (margin crossed), plus a never-seen key. -/
theorem cache_get_pessimistic_expiry_witness :
    ([("a", c2Art)].map Prod.fst).Nodup ∧
    dictGet [("a", c2Art)] "a" = some c2Art ∧
    c2Art.expires_at ≤ 50 + 90 ∧
    dictGet [("a", c2Art)] "b" = none ∧
    (get_cached_url 50 [("a", c2Art)] "b" = (none, [("a", c2Art)]) ∧
      (get_cached_url 50 [("a", c2Art)] "a").1 = none ∧
      dictGet (get_cached_url 50 [("a", c2Art)] "a").2 "a" = none) :=
  ⟨by decide, by decide, by decide, by decide,
    (cache_get_pessimistic_expiry 50 [("a", c2Art)] "b" (by decide)).1 (by decide),
    (cache_get_pessimistic_expiry 50 [("a", c2Art)] "a" (by decide)).2 c2Art
      (by decide) (by decide)⟩

/-- C3 counterexample: a candidate set containing a protocol-eligible,
audio-bearing entry (itag 140, https, aac) whose URL field is an empty
string; the claim says the selector returns a selection whenever a
protocol-eligible audio-bearing entry exists, but
`select_progressive_audio` returns no selection here (the source also
requires a non-falsy `url`). -/
theorem selector_skips_urlless_candidate :
    specProtocolEligible c3Format = true ∧
    specAudioBearing c3Format = true ∧
    c3Format ∈ c3Info.formats ∧
    select_progressive_audio c3Info = none := by
  decide

/-- C4: evaluation at the failing input. For an upstream 403, the inner
code closes both connections and raises `HTTPException(403, ...)`
(annotated with the IP mismatch), but the surrounding `except Exception`
swallows it and the caller receives status 500, not the upstream 403. -/
theorem proxy_upstream_403_yields_500 :
    (proxy_stream { status_code := 403 } "audio/mp4").upstreamClosed = true ∧
    (proxy_stream { status_code := 403 } "audio/mp4").clientClosed = true ∧
    upstreamDetail 403 =
      "Upstream 403 from YouTube. This likely means the streaming IP does not match the extraction IP (IP-Locking)." ∧
    (proxy_stream { status_code := 403 } "audio/mp4").result =
      .httpError 500 ("Stream proxy error: 403: " ++ upstreamDetail 403) ∧
    (proxy_stream { status_code := 403 } "audio/mp4").result.statusOf = 500 ∧
    (proxy_stream { status_code := 403 } "audio/mp4").result.statusOf ≠ 403 := by
  decide

/-- C5 counterexample: a successful cache read through
`get_cached_url` (the get operation the engine actually uses, built on
`dict.get`) does NOT mark the key most-recently-used: after a successful
get of "a", the cache order is unchanged and "a" is still the oldest
(next-to-evict) entry; the LRU reordering exists only in the bracket
`__getitem__`, which the engine never calls. -/
theorem cache_read_does_not_mark_mru :
    c5Cache = [("a", c5ArtA), ("b", c5ArtB)] ∧
    get_cached_url 0 c5Cache "a" = (some c5ArtA, c5Cache) ∧
    c5Cache.head? = some ("a", c5ArtA) ∧
    lruGetItem c5Cache "a" = some (c5ArtA, [("b", c5ArtB), ("a", c5ArtA)]) := by
  decide

/-- C6 counterexample: an urgent extraction whose caller timeout fires
while the extraction thread completes with a perfectly usable format; the
caller gets the distinct timeout error, but the produced artifact is never
written to the cache — the post-await continuation holding the cache write
was cancelled — contradicting the claim that a started extraction always
populates the cache on timeout. -/
theorem urgent_timeout_discards_artifact :
    select_progressive_audio c1Info = some c1Fmt ∧
    urgent_extract initialEngine 0 "t" true (.completed c1Info) =
      (.timeoutErr "Urgent extraction for t timed out", initialEngine) ∧
    dictGet (urgent_extract initialEngine 0 "t" true (.completed c1Info)).2.cache "t" =
      none := by
  decide

/-- C7: evaluation at the failing input. The empty-chunk and streaming
exits kill and reap the spawned yt-dlp process, but the strategy-timeout
exit (`except asyncio.TimeoutError: ... continue`) moves to the next
strategy without terminating it: the spawned process is left running
unreaped. -/
theorem pipe_strategy_timeout_leaks_process :
    (runStrategy (.chunk []) "ERROR: no formats").processReaped = true ∧
    (runStrategy (.chunk [0x4F, 0x67, 0x67, 0x53]) "").processReaped = true ∧
    (runStrategy (.chunk [0x4F, 0x67, 0x67, 0x53]) "").outcome =
      .succeeded "audio/ogg" ∧
    (runStrategy .readTimeout "").outcome = .tryNext "timed out" ∧
    (runStrategy .readTimeout "").processReaped = false := by
  decide

/-- C1: evaluation at the failing input. After the worker's cache-hit skip
path settles a queued task without removing its `pending_tasks` entry, the
cached artifact eventually crosses the pessimistic-expiry threshold: the
track is then uncached, yet every new background caller joins the stale
settled slot — receiving the already-expired artifact — and no new
extraction task is ever queued (zero upstream extractions instead of
exactly one). -/
theorem stale_pending_serves_expired_artifact :
    (get_cached_url 17950 c1S3.cache "t").1 = none ∧
    dictGet c1S3.pending "t" = some 0 ∧
    dictGet c1S3.slots 0 = some (.ok c1Art) ∧
    (requestBG c1S3 17950 "t").1 = .joined 0 ∧
    (requestBG c1S3 17950 "t").2.queueTasks = [] ∧
    (requestBG (requestBG c1S3 17950 "t").2 17950 "t").1 = .joined 0 ∧
    (requestBG (requestBG c1S3 17950 "t").2 17950 "t").2.queueTasks = [] ∧
    awaitFuture (requestBG c1S3 17950 "t").2.slots 0 false "t" =
      some (.value c1Art) ∧
    c1Art.expires_at ≤ 17950 + 90 := by
  decide

/-- C8 counterexample: tasks A and B share priority 2 with A enqueued first
(earlier timestamp), C has priority 1 and arrives last.  The dequeue order
is C, B, A: within the equal-priority tier the LATER-enqueued B dequeues
before A, because `timestamp` is `field(compare=False)` (excluded from the
dataclass ordering) and the `heapq` heap is not FIFO-stable for equal
elements. -/
theorem queue_equal_priority_not_fifo :
    c8TaskA.priority = c8TaskB.priority ∧
    c8TaskA.timestamp < c8TaskB.timestamp ∧
    c8Heap = [c8TaskC, c8TaskB, c8TaskA] ∧
    heappop c8Heap = some (c8TaskC, [c8TaskB, c8TaskA]) ∧
    heappop [c8TaskB, c8TaskA] = some (c8TaskB, [c8TaskA]) := by
  refine ⟨by decide, by decide, ?_, ?_, ?_⟩ <;>
    simp [c8Heap, heappush, heappop, siftupAux, siftdownAux, chooseChild, taskAt,
      taskLt, keyAt, c8TaskA, c8TaskB, c8TaskC]

/-! ### Heap-ordering lemmas for the amended C8 -/

/-- Setting an index then reading it back (in range). -/
theorem taskAt_set_self (l : List ExtractionTask) (i : Nat) (v : ExtractionTask)
    (h : i < l.length) : taskAt (l.set i v) i = v := by
  induction l generalizing i with
  | nil => simp at h
  | cons a t ih =>
    cases i with
    | zero => simp [taskAt]
    | succ n => simpa [taskAt] using ih n (by simpa using h)

/-- Setting one index leaves the others unchanged. -/
theorem taskAt_set_ne (l : List ExtractionTask) (i j : Nat) (v : ExtractionTask)
    (h : i ≠ j) : taskAt (l.set i v) j = taskAt l j := by
  induction l generalizing i j with
  | nil => simp [taskAt]
  | cons a t ih =>
    cases i with
    | zero =>
      cases j with
      | zero => exact absurd rfl h
      | succ m => simp [taskAt]
    | succ n =>
      cases j with
      | zero => simp [taskAt]
      | succ m => simpa [taskAt] using ih n m (fun he => h (by omega))

/-- `keyAt` version of `taskAt_set_self`. -/
theorem keyAt_set_self (l : List ExtractionTask) (i : Nat) (v : ExtractionTask)
    (h : i < l.length) : keyAt (l.set i v) i = v.priority := by
  simp [keyAt, taskAt_set_self l i v h]

/-- `keyAt` version of `taskAt_set_ne`. -/
theorem keyAt_set_ne (l : List ExtractionTask) (i j : Nat) (v : ExtractionTask)
    (h : i ≠ j) : keyAt (l.set i v) j = keyAt l j := by
  simp [keyAt, taskAt_set_ne l i j v h]

/-- A child index is strictly below its parent-indexed node. -/
theorem child_gt {j pos : Nat} (h : (j - 1) / 2 = pos) (hj : 0 < j) : pos < j := by
  omega

/-- An in-range `taskAt` read is a member of the list. -/
theorem taskAt_mem (l : List ExtractionTask) (i : Nat) (h : i < l.length) :
    taskAt l i ∈ l := by
  induction l generalizing i with
  | nil => simp at h
  | cons a t ih =>
    cases i with
    | zero => simp [taskAt]
    | succ n =>
      simp only [taskAt, List.getElem?_cons_succ, List.mem_cons]
      exact Or.inr (ih n (by simpa using h))

/-- In a heap, the root key bounds every key. -/
theorem isHeap_root_le (l : List ExtractionTask) (hh : IsHeap l) :
    ∀ j, j < l.length → keyAt l 0 ≤ keyAt l j := by
  intro j
  induction j using Nat.strong_induction_on with
  | _ j IH =>
    intro hj
    rcases Nat.eq_zero_or_pos j with h0 | h0
    · subst h0; exact le_refl _
    · have hp := hh j hj h0
      have hlt : (j - 1) / 2 < j := by omega
      exact le_trans (IH _ hlt (lt_trans hlt hj)) hp

/-- Bubble-up correctness for `_siftdown`: if the array satisfies the heap
property everywhere except on the edge into the hole `pos`, `newitem` is a
lower bound for the children of `pos`, and the grandparent of `pos` bounds
the children of `pos`, then the result is a heap. -/
theorem siftdownAux_isHeap :
    ∀ (pos : Nat) (l : List ExtractionTask) (newitem : ExtractionTask),
      pos < l.length →
      (∀ j, j < l.length → 0 < j → j ≠ pos → keyAt l ((j - 1) / 2) ≤ keyAt l j) →
      (∀ j, j < l.length → 0 < j → (j - 1) / 2 = pos → newitem.priority ≤ keyAt l j) →
      (∀ j, j < l.length → 0 < j → (j - 1) / 2 = pos → 0 < pos →
        keyAt l ((pos - 1) / 2) ≤ keyAt l j) →
      IsHeap (siftdownAux l pos newitem) := by
  intro pos
  induction pos using Nat.strong_induction_on with
  | _ pos IH =>
    intro l newitem hpos hA hC hG
    rw [siftdownAux]
    by_cases hp : 0 < pos
    · rw [dif_pos hp]
      by_cases hlt : taskLt newitem (taskAt l ((pos - 1) / 2))
      · rw [if_pos hlt]
        have hltk : newitem.priority < keyAt l ((pos - 1) / 2) := by
          simpa [taskLt, keyAt] using hlt
        apply IH ((pos - 1) / 2) (by omega)
        · simpa using lt_trans (by omega : (pos - 1) / 2 < pos) hpos
        · -- heap-except-into-parentpos for the updated array
          intro j hj hj0 hjP
          rw [List.length_set] at hj
          by_cases hjpos : j = pos
          · rw [hjpos, keyAt_set_ne l pos ((pos - 1) / 2) _ (by omega),
              keyAt_set_self l pos _ hpos]
            exact le_refl (keyAt l ((pos - 1) / 2))
          · by_cases hparent : (j - 1) / 2 = pos
            · rw [hparent, keyAt_set_self l pos _ hpos,
                keyAt_set_ne l pos j _ (fun he => hjpos he.symm)]
              exact hG j hj hj0 hparent hp
            · rw [keyAt_set_ne l pos ((j - 1) / 2) _ (fun he => hparent he.symm),
                keyAt_set_ne l pos j _ (fun he => hjpos he.symm)]
              exact hA j hj hj0 hjpos
        · -- newitem bounds the children of parentpos
          intro j hj hj0 hjP
          rw [List.length_set] at hj
          by_cases hjpos : j = pos
          · rw [hjpos, keyAt_set_self l pos _ hpos]
            exact le_of_lt hltk
          · rw [keyAt_set_ne l pos j _ (fun he => hjpos he.symm)]
            have h2 : keyAt l ((j - 1) / 2) ≤ keyAt l j := hA j hj hj0 hjpos
            rw [hjP] at h2
            exact le_trans (le_of_lt hltk) h2
        · -- the grandparent bound for the children of parentpos
          intro j hj hj0 hjP hPpos
          rw [List.length_set] at hj
          have hPlen : (pos - 1) / 2 < l.length := lt_trans (by omega) hpos
          have hgp : keyAt l (((pos - 1) / 2 - 1) / 2) ≤ keyAt l ((pos - 1) / 2) :=
            hA ((pos - 1) / 2) hPlen hPpos (by omega)
          rw [keyAt_set_ne l pos (((pos - 1) / 2 - 1) / 2) _ (by omega)]
          by_cases hjpos : j = pos
          · rw [hjpos, keyAt_set_self l pos _ hpos]
            exact hgp
          · rw [keyAt_set_ne l pos j _ (fun he => hjpos he.symm)]
            have h2 : keyAt l ((j - 1) / 2) ≤ keyAt l j := hA j hj hj0 hjpos
            rw [hjP] at h2
            exact le_trans hgp h2
      · rw [if_neg hlt]
        have hlek : keyAt l ((pos - 1) / 2) ≤ newitem.priority := by
          have := hlt
          simp only [taskLt, keyAt, decide_eq_true_eq] at this ⊢
          omega
        intro j hj hj0
        rw [List.length_set] at hj
        by_cases hjpos : j = pos
        · rw [hjpos, keyAt_set_ne l pos ((pos - 1) / 2) _ (by omega),
            keyAt_set_self l pos _ hpos]
          exact hlek
        · by_cases hparent : (j - 1) / 2 = pos
          · rw [hparent, keyAt_set_self l pos _ hpos,
              keyAt_set_ne l pos j _ (fun he => hjpos he.symm)]
            exact hC j hj hj0 hparent
          · rw [keyAt_set_ne l pos ((j - 1) / 2) _ (fun he => hparent he.symm),
              keyAt_set_ne l pos j _ (fun he => hjpos he.symm)]
            exact hA j hj hj0 hjpos
    · rw [dif_neg hp]
      have hp0 : pos = 0 := by omega
      subst hp0
      intro j hj hj0
      rw [List.length_set] at hj
      have hjpos : j ≠ 0 := by omega
      by_cases hparent : (j - 1) / 2 = 0
      · rw [hparent, keyAt_set_self l 0 _ hpos,
          keyAt_set_ne l 0 j _ (fun he => hjpos he.symm)]
        exact hC j hj hj0 hparent
      · rw [keyAt_set_ne l 0 ((j - 1) / 2) _ (fun he => hparent he.symm),
          keyAt_set_ne l 0 j _ (fun he => hjpos he.symm)]
        exact hA j hj hj0 hjpos

/-- The chosen child lies among the two child indices and in range. -/
theorem chooseChild_range (l : List ExtractionTask) (pos : Nat)
    (hchild : 2 * pos + 1 < l.length) :
    2 * pos + 1 ≤ chooseChild l pos ∧ chooseChild l pos ≤ 2 * pos + 2 ∧
      chooseChild l pos < l.length := by
  unfold chooseChild
  split
  next hcond =>
    simp only [Bool.and_eq_true, decide_eq_true_eq] at hcond
    exact ⟨by omega, by omega, hcond.1⟩
  next => exact ⟨by omega, by omega, hchild⟩

/-- The chosen child carries the smaller key among the children of `pos`. -/
theorem chooseChild_min (l : List ExtractionTask) (pos : Nat)
    (hchild : 2 * pos + 1 < l.length) :
    ∀ o, o < l.length → 0 < o → (o - 1) / 2 = pos →
      keyAt l (chooseChild l pos) ≤ keyAt l o := by
  intro o ho ho0 hop
  have ho12 : o = 2 * pos + 1 ∨ o = 2 * pos + 2 := by omega
  unfold chooseChild
  split
  next hcond =>
    simp only [Bool.and_eq_true, Bool.not_eq_true', decide_eq_true_eq] at hcond
    have hle : keyAt l (2 * pos + 2) ≤ keyAt l (2 * pos + 1) := by
      have h2 := hcond.2
      simp only [taskLt, keyAt, decide_eq_false_iff_not, not_lt] at h2
      exact h2
    rcases ho12 with h | h
    · rw [h]; exact hle
    · rw [h]
  next hcond =>
    rcases ho12 with h | h
    · rw [h]
    · rw [h]
      have hcond2 : ¬(2 * pos + 2 < l.length ∧
          taskLt (taskAt l (2 * pos + 1)) (taskAt l (2 * pos + 2)) = false) := by
        intro hand
        exact hcond (by simp [Bool.and_eq_true, Bool.not_eq_true', decide_eq_true_eq, hand.1, hand.2])
      have hlen2 : 2 * pos + 2 < l.length := by omega
      have hlt : taskLt (taskAt l (2 * pos + 1)) (taskAt l (2 * pos + 2)) = true := by
        rcases Bool.eq_false_or_eq_true
            (taskLt (taskAt l (2 * pos + 1)) (taskAt l (2 * pos + 2))) with ht | hf
        · exact ht
        · exact absurd ⟨hlen2, hf⟩ hcond2
      simp only [taskLt, keyAt, decide_eq_true_eq] at hlt ⊢
      exact le_of_lt hlt

/-- Walk-down correctness for `_siftup` (fuel-indexed by the distance from
the hole to the end of the array): if the array is a heap except on the
edges touching the hole `pos`, and the parent of `pos` bounds the children
of `pos`, then the result is a heap. -/
theorem siftupAux_isHeap_aux :
    ∀ (n : Nat) (l : List ExtractionTask) (pos : Nat) (newitem : ExtractionTask),
      l.length - pos ≤ n →
      pos < l.length →
      (∀ j, j < l.length → 0 < j → j ≠ pos → (j - 1) / 2 ≠ pos →
        keyAt l ((j - 1) / 2) ≤ keyAt l j) →
      (∀ j, j < l.length → 0 < j → (j - 1) / 2 = pos → 0 < pos →
        keyAt l ((pos - 1) / 2) ≤ keyAt l j) →
      IsHeap (siftupAux l pos newitem) := by
  intro n
  induction n with
  | zero =>
    intro l pos newitem hn hpos hE hG2
    omega
  | succ n IH =>
    intro l pos newitem hn hpos hE hG2
    rw [siftupAux]
    by_cases hchild : 2 * pos + 1 < l.length
    · rw [dif_pos hchild]
      obtain ⟨hc1, hc2, hclen⟩ := chooseChild_range l pos hchild
      have hcparent : (chooseChild l pos - 1) / 2 = pos := by omega
      have hcmin := chooseChild_min l pos hchild
      apply IH
      · simp only [List.length_set]; omega
      · simp only [List.length_set]; omega
      · -- heap except at the new hole (the chosen child)
        intro j hj hj0 hjc hjcP
        rw [List.length_set] at hj
        by_cases hjpos : j = pos
        · have hpos0 : 0 < pos := by omega
          rw [hjpos, keyAt_set_ne l pos ((pos - 1) / 2) _ (by omega),
            keyAt_set_self l pos _ hpos]
          exact hG2 (chooseChild l pos) hclen (by omega) hcparent hpos0
        · by_cases hparent : (j - 1) / 2 = pos
          · rw [hparent, keyAt_set_self l pos _ hpos,
              keyAt_set_ne l pos j _ (fun he => hjpos he.symm)]
            exact hcmin j hj hj0 hparent
          · rw [keyAt_set_ne l pos ((j - 1) / 2) _ (fun he => hparent he.symm),
              keyAt_set_ne l pos j _ (fun he => hjpos he.symm)]
            exact hE j hj hj0 hjpos hparent
      · -- the parent of the new hole bounds its children
        intro j hj hj0 hjP _hc0
        rw [List.length_set] at hj
        have hjgt : chooseChild l pos < j := by omega
        have hjpos : j ≠ pos := by omega
        have hjPpos : (j - 1) / 2 ≠ pos := by omega
        rw [hcparent, keyAt_set_self l pos _ hpos,
          keyAt_set_ne l pos j _ (fun he => hjpos he.symm)]
        have hstep := hE j hj hj0 hjpos (by omega)
        rw [hjP] at hstep
        exact hstep
    · rw [dif_neg hchild]
      apply siftdownAux_isHeap pos
      · simpa using hpos
      · intro j hj hj0 hjpos
        rw [List.length_set] at hj
        have hparent : (j - 1) / 2 ≠ pos := by omega
        rw [keyAt_set_ne l pos ((j - 1) / 2) _ (fun he => hparent he.symm),
          keyAt_set_ne l pos j _ (fun he => hjpos he.symm)]
        exact hE j hj hj0 hjpos hparent
      · intro j hj hj0 hjP
        rw [List.length_set] at hj
        omega
      · intro j hj hj0 hjP _
        rw [List.length_set] at hj
        omega

/-- Reading a prefix index is unaffected by appending. -/
theorem taskAt_append_lt (l : List ExtractionTask) (x : ExtractionTask) (i : Nat)
    (h : i < l.length) : taskAt (l ++ [x]) i = taskAt l i := by
  induction l generalizing i with
  | nil => simp at h
  | cons a t ih =>
    cases i with
    | zero => simp [taskAt]
    | succ m => simpa [taskAt] using ih m (by simpa using h)

/-- `heappush` preserves the heap invariant. -/
theorem heappush_isHeap (l : List ExtractionTask) (x : ExtractionTask)
    (hh : IsHeap l) : IsHeap (heappush l x) := by
  unfold heappush
  apply siftdownAux_isHeap l.length
  · simp
  · intro j hj hj0 hjpos
    simp only [List.length_append, List.length_singleton] at hj
    have hjlt : j < l.length := by omega
    rw [keyAt, keyAt, taskAt_append_lt l x j hjlt,
      taskAt_append_lt l x ((j - 1) / 2) (by omega)]
    exact hh j hjlt hj0
  · intro j hj hj0 hjP
    simp only [List.length_append, List.length_singleton] at hj
    omega
  · intro j hj hj0 hjP _
    simp only [List.length_append, List.length_singleton] at hj
    omega

/-- Reading inside `dropLast` agrees with reading the original list. -/
theorem taskAt_dropLast (l : List ExtractionTask) (i : Nat)
    (h : i < l.dropLast.length) : taskAt l.dropLast i = taskAt l i := by
  induction l generalizing i with
  | nil => simp at h
  | cons a t ih =>
    cases t with
    | nil => simp at h
    | cons b t2 =>
      cases i with
      | zero => simp [taskAt, List.dropLast]
      | succ m =>
        have hm : m < (b :: t2).dropLast.length := by
          simpa [List.dropLast] using h
        simpa [taskAt, List.dropLast] using ih m hm

/-- A head of `dropLast` is the head of the list. -/
theorem head?_of_dropLast {l : List ExtractionTask} {r : ExtractionTask}
    (h : l.dropLast.head? = some r) : l.head? = some r := by
  cases l with
  | nil => simp at h
  | cons a t =>
    cases t with
    | nil => simp at h
    | cons b t2 => simpa [List.dropLast] using h

/-- The element the heap read at index 0 when the head is known. -/
theorem taskAt_zero_of_head? {l : List ExtractionTask} {r : ExtractionTask}
    (h : l.head? = some r) : taskAt l 0 = r := by
  cases l with
  | nil => simp at h
  | cons a t =>
    simp only [List.head?_cons, Option.some.injEq] at h
    simpa [taskAt] using h

/-- The last element, when present, is a member. -/
theorem mem_of_getLast?_eq {l : List ExtractionTask} {a : ExtractionTask}
    (h : l.getLast? = some a) : a ∈ l := by
  induction l with
  | nil => simp at h
  | cons x t ih =>
    cases t with
    | nil =>
      simp only [List.getLast?_singleton, Option.some.injEq] at h
      simp [h]
    | cons y t2 =>
      rw [List.getLast?_cons_cons] at h
      exact List.mem_cons_of_mem x (ih h)

/-- Members of `l.set i v` come from `l` or are `v`. -/
theorem mem_set_or (l : List ExtractionTask) (i : Nat) (v u : ExtractionTask)
    (hu : u ∈ l.set i v) : u ∈ l ∨ u = v := by
  induction l generalizing i with
  | nil => simp at hu
  | cons a t ih =>
    cases i with
    | zero =>
      rcases List.mem_cons.mp hu with h | h
      · exact Or.inr h
      · exact Or.inl (List.mem_cons_of_mem a h)
    | succ m =>
      rcases List.mem_cons.mp hu with h | h
      · exact Or.inl (by simp [h])
      · rcases ih m h with h2 | h2
        · exact Or.inl (List.mem_cons_of_mem a h2)
        · exact Or.inr h2

/-- Members after `_siftdown` come from the array or are the new item. -/
theorem mem_siftdownAux :
    ∀ (pos : Nat) (l : List ExtractionTask) (newitem u : ExtractionTask),
      pos < l.length → u ∈ siftdownAux l pos newitem → u ∈ l ∨ u = newitem := by
  intro pos
  induction pos using Nat.strong_induction_on with
  | _ pos IH =>
    intro l newitem u hpos hu
    rw [siftdownAux] at hu
    by_cases hp : 0 < pos
    · rw [dif_pos hp] at hu
      by_cases hlt : taskLt newitem (taskAt l ((pos - 1) / 2))
      · rw [if_pos hlt] at hu
        have hplen : (pos - 1) / 2 < (l.set pos (taskAt l ((pos - 1) / 2))).length := by
          simp only [List.length_set]; omega
        rcases IH ((pos - 1) / 2) (by omega) _ newitem u hplen hu with h | h
        · rcases mem_set_or l pos _ u h with h2 | h2
          · exact Or.inl h2
          · exact Or.inl (h2 ▸ taskAt_mem l ((pos - 1) / 2) (by omega))
        · exact Or.inr h
      · rw [if_neg hlt] at hu
        exact mem_set_or l pos newitem u hu
    · rw [dif_neg hp] at hu
      exact mem_set_or l pos newitem u hu

/-- Members after `_siftup` come from the array or are the new item. -/
theorem mem_siftupAux :
    ∀ (n : Nat) (l : List ExtractionTask) (pos : Nat) (newitem u : ExtractionTask),
      l.length - pos ≤ n → pos < l.length →
      u ∈ siftupAux l pos newitem → u ∈ l ∨ u = newitem := by
  intro n
  induction n with
  | zero =>
    intro l pos newitem u hn hpos hu
    omega
  | succ n IH =>
    intro l pos newitem u hn hpos hu
    rw [siftupAux] at hu
    by_cases hchild : 2 * pos + 1 < l.length
    · rw [dif_pos hchild] at hu
      obtain ⟨hc1, hc2, hclen⟩ := chooseChild_range l pos hchild
      have hrec := IH (l.set pos (taskAt l (chooseChild l pos))) (chooseChild l pos)
        newitem u (by simp only [List.length_set]; omega)
        (by simp only [List.length_set]; omega) hu
      rcases hrec with h | h
      · rcases mem_set_or l pos _ u h with h2 | h2
        · exact Or.inl h2
        · exact Or.inl (h2 ▸ taskAt_mem l (chooseChild l pos) hclen)
      · exact Or.inr h
    · rw [dif_neg hchild] at hu
      rcases mem_siftdownAux pos (l.set pos newitem) newitem u
          (by simp only [List.length_set]; omega) hu with h | h
      · rcases mem_set_or l pos newitem u h with h2 | h2
        · exact Or.inl h2
        · exact Or.inr h2
      · exact Or.inr h

/-- `heappop` yields a heap again, and the popped task has minimal priority:
every remaining task's priority is at least the popped one's. -/
theorem heappop_isHeap_min (l : List ExtractionTask) (hh : IsHeap l)
    (t : ExtractionTask) (l' : List ExtractionTask)
    (hpop : heappop l = some (t, l')) :
    IsHeap l' ∧ ∀ u ∈ l', t.priority ≤ u.priority := by
  unfold heappop at hpop
  cases hg : l.getLast? with
  | none => simp [hg] at hpop
  | some lastelt =>
    cases hh1 : l.dropLast.head? with
    | none =>
      simp only [hg, hh1, Option.some.injEq, Prod.mk.injEq] at hpop
      rw [← hpop.2]
      exact ⟨by intro j hj hj0; simp at hj, by intro u hu; simp at hu⟩
    | some returnitem =>
      simp only [hg, hh1, Option.some.injEq, Prod.mk.injEq] at hpop
      obtain ⟨ht, hl'⟩ := hpop
      have hlen1 : 0 < l.dropLast.length := by
        cases hd : l.dropLast with
        | nil => rw [hd] at hh1; simp at hh1
        | cons a t2 => simp [hd]
      have hlenl : l.dropLast.length < l.length := by
        cases l with
        | nil => simp at hlen1
        | cons a t2 => simp [List.dropLast]
      constructor
      · rw [← hl']
        apply siftupAux_isHeap_aux (l.dropLast.set 0 lastelt).length
        · omega
        · simp only [List.length_set]; omega
        · intro j hj hj0 hjpos hjP
          rw [List.length_set] at hj
          rw [keyAt_set_ne _ 0 ((j - 1) / 2) _ (fun he => hjP he.symm),
            keyAt_set_ne _ 0 j _ (fun he => hjpos he.symm),
            keyAt, keyAt, taskAt_dropLast l j hj,
            taskAt_dropLast l ((j - 1) / 2) (by omega)]
          exact hh j (by omega) hj0
        · intro j hj hj0 hjP hpos0
          omega
      · intro u hu
        rw [← hl'] at hu
        have hu2 := mem_siftupAux (l.dropLast.set 0 lastelt).length _ 0 lastelt u
          (by omega) (by simp only [List.length_set]; omega) hu
        have humeml : u ∈ l := by
          rcases hu2 with h | h
          · rcases mem_set_or _ 0 lastelt u h with h2 | h2
            · exact List.dropLast_subset l h2
            · exact h2 ▸ mem_of_getLast?_eq hg
          · exact h ▸ mem_of_getLast?_eq hg
        obtain ⟨i, hi, hieq⟩ := List.mem_iff_getElem.mp humeml
        have hroot := isHeap_root_le l hh i hi
        have hkey : keyAt l i = u.priority := by
          rw [keyAt, taskAt, List.getElem?_eq_getElem hi, hieq]
          rfl
        have hhead : l.head? = some returnitem := head?_of_dropLast hh1
        have hzero : keyAt l 0 = t.priority := by
          rw [keyAt, taskAt_zero_of_head? hhead, ht]
        rw [← hzero, ← hkey]
        exact hroot

/-- C8 amended: the background queue dequeues by priority value alone — the
dataclass comparison uses only `priority` (`video_id`, `timestamp` and
`future` are `compare=False`) — so a lower priority value dequeues first
(each pop returns a task of minimal priority among those queued, and pushes
and pops preserve the heap shape), but equal-priority ties follow binary
heap order, which is not FIFO by enqueue time. -/
theorem queue_orders_by_priority_only :
    (∀ a b : ExtractionTask, taskLt a b = true ↔ a.priority < b.priority) ∧
    (∀ (l : List ExtractionTask) (x : ExtractionTask),
      IsHeap l → IsHeap (heappush l x)) ∧
    (∀ (l : List ExtractionTask) (t : ExtractionTask) (l' : List ExtractionTask),
      IsHeap l → heappop l = some (t, l') →
      IsHeap l' ∧ ∀ u ∈ l', t.priority ≤ u.priority) := by
  refine ⟨?_, ?_, ?_⟩
  · intro a b
    simp [taskLt]
  · intro l x hh
    exact heappush_isHeap l x hh
  · intro l t l' hh hpop
    exact heappop_isHeap_min l hh t l' hpop

/-- Witness for the amended C8 at a concrete two-task heap. -/
theorem queue_orders_by_priority_only_witness :
    IsHeap c8WHeap ∧ heappop c8WHeap = some (c8WTop, [c8WRest]) ∧
    IsHeap (heappush c8WHeap c8WTop) ∧
    (IsHeap [c8WRest] ∧ ∀ u ∈ [c8WRest], c8WTop.priority ≤ u.priority) := by
  have hh : IsHeap c8WHeap := by decide
  have hpop : heappop c8WHeap = some (c8WTop, [c8WRest]) := by
    simp [c8WHeap, c8WTop, c8WRest, heappop, siftupAux, siftdownAux, chooseChild,
      taskAt, taskLt]
  exact ⟨hh, hpop, queue_orders_by_priority_only.2.1 c8WHeap c8WTop hh,
    queue_orders_by_priority_only.2.2 c8WHeap c8WTop [c8WRest] hh hpop⟩

/-! ### Format-selection lemmas -/

/-- A successful dict lookup returns a stored binding. -/
theorem dictGet_mem {κ α : Type} [DecidableEq κ] (l : List (κ × α)) (k : κ) (v : α)
    (h : dictGet l k = some v) : (k, v) ∈ l := by
  induction l with
  | nil => simp [dictGet] at h
  | cons hd tl ih =>
    obtain ⟨k1, v1⟩ := hd
    by_cases hk : k1 = k
    · subst hk
      rw [dictGet, if_pos rfl] at h
      simp only [Option.some.injEq] at h
      rw [← h]
      exact List.mem_cons_self _ _
    · simp only [dictGet, if_neg hk] at h
      exact List.mem_cons_of_mem _ (ih h)

/-- Members of a dict after insertion come from the dict or are the new
binding. -/
theorem mem_dictInsert_or {κ α : Type} [DecidableEq κ] (l : List (κ × α))
    (k : κ) (v : α) (x : κ × α) (hx : x ∈ dictInsert l k v) : x ∈ l ∨ x = (k, v) := by
  induction l with
  | nil => simpa [dictInsert] using hx
  | cons hd tl ih =>
    obtain ⟨k1, v1⟩ := hd
    by_cases hk : k1 = k
    · simp only [dictInsert, if_pos hk] at hx
      rcases List.mem_cons.mp hx with h | h
      · exact Or.inr h
      · exact Or.inl (List.mem_cons_of_mem _ h)
    · simp only [dictInsert, if_neg hk] at hx
      rcases List.mem_cons.mp hx with h | h
      · exact Or.inl (by simp [h])
      · rcases ih h with h2 | h2
        · exact Or.inl (List.mem_cons_of_mem _ h2)
        · exact Or.inr h2

/-- Inserting into a dict never yields the empty dict. -/
theorem dictInsert_ne_nil {κ α : Type} [DecidableEq κ] (l : List (κ × α))
    (k : κ) (v : α) : dictInsert l k v ≠ [] := by
  cases l with
  | nil => simp [dictInsert]
  | cons hd tl =>
    obtain ⟨k1, v1⟩ := hd
    by_cases hk : k1 = k
    · simp [dictInsert, if_pos hk]
    · simp [dictInsert, if_neg hk]

/-- Every entry of the format lookup is an eligible format drawn from the
candidate list. -/
theorem mem_buildFormatLookup (formats : List MediaFormat) :
    ∀ kv ∈ buildFormatLookup formats, kv.2 ∈ formats ∧ formatEligible kv.2 = true := by
  suffices h : ∀ (fs : List MediaFormat) (acc : List (String × MediaFormat)),
      ∀ kv ∈ fs.foldl
        (fun lookup f => if formatEligible f then dictInsert lookup f.format_id f else lookup)
        acc,
      kv ∈ acc ∨ (kv.2 ∈ fs ∧ formatEligible kv.2 = true) by
    intro kv hkv
    rcases h formats [] kv hkv with h2 | h2
    · simp at h2
    · exact h2
  intro fs
  induction fs with
  | nil => intro acc kv hkv; exact Or.inl hkv
  | cons f fs ih =>
    intro acc kv hkv
    rw [List.foldl_cons] at hkv
    rcases ih _ kv hkv with h2 | h2
    · by_cases hel : formatEligible f
      · rw [if_pos hel] at h2
        rcases mem_dictInsert_or acc f.format_id f kv h2 with h3 | h3
        · exact Or.inl h3
        · refine Or.inr ⟨?_, ?_⟩
          · rw [h3]; exact List.mem_cons_self _ _
          · rw [h3]; exact hel
      · rw [if_neg hel] at h2
        exact Or.inl h2
    · exact Or.inr ⟨List.mem_cons_of_mem _ h2.1, h2.2⟩

/-- If an eligible format exists in the candidates, the lookup is
nonempty. -/
theorem buildFormatLookup_ne_nil (formats : List MediaFormat)
    (h : ∃ f ∈ formats, formatEligible f = true) :
    buildFormatLookup formats ≠ [] := by
  suffices hs : ∀ (fs : List MediaFormat) (acc : List (String × MediaFormat)),
      (acc ≠ [] ∨ ∃ f ∈ fs, formatEligible f = true) →
      fs.foldl
        (fun lookup f => if formatEligible f then dictInsert lookup f.format_id f else lookup)
        acc ≠ [] by
    exact hs formats [] (Or.inr h)
  intro fs
  induction fs with
  | nil =>
    intro acc hacc
    rcases hacc with h2 | h2
    · exact h2
    · simp at h2
  | cons f fs ih =>
    intro acc hacc
    rw [List.foldl_cons]
    by_cases hel : formatEligible f
    · rw [if_pos hel]
      exact ih _ (Or.inl (dictInsert_ne_nil acc f.format_id f))
    · rw [if_neg hel]
      apply ih
      rcases hacc with h2 | h2
      · exact Or.inl h2
      · obtain ⟨g, hg, hge⟩ := h2
        rcases List.mem_cons.mp hg with h3 | h3
        · exact absurd (h3 ▸ hge) hel
        · exact Or.inr ⟨g, h3, hge⟩

/-- The preferred-itag loop returns an entry of the lookup. -/
theorem pickPreferredItag_mem (lookup : List (String × MediaFormat)) :
    ∀ (itags : List String) (f : MediaFormat),
      pickPreferredItag lookup itags = some f → ∃ k, (k, f) ∈ lookup := by
  intro itags
  induction itags with
  | nil => intro f h; simp [pickPreferredItag] at h
  | cons itag rest ih =>
    intro f h
    rw [pickPreferredItag] at h
    cases hg : dictGet lookup itag with
    | some g =>
      rw [hg] at h
      simp only [Option.some.injEq] at h
      exact ⟨itag, dictGet_mem lookup itag f (h ▸ hg)⟩
    | none =>
      rw [hg] at h
      exact ih f h

/-- The audio-only fallback loop returns an entry of the lookup. -/
theorem pickAudioOnly_mem :
    ∀ (lookup : List (String × MediaFormat)) (f : MediaFormat),
      pickAudioOnly lookup = some f → ∃ k, (k, f) ∈ lookup := by
  intro lookup
  induction lookup with
  | nil => intro f h; simp [pickAudioOnly] at h
  | cons hd tl ih =>
    obtain ⟨k1, g⟩ := hd
    intro f h
    rw [pickAudioOnly] at h
    by_cases ha : isAudioOnlyVcodec g
    · rw [if_pos ha] at h
      simp only [Option.some.injEq] at h
      exact ⟨k1, by simp [h]⟩
    · rw [if_neg ha] at h
      obtain ⟨k, hk⟩ := ih f h
      exact ⟨k, List.mem_cons_of_mem _ hk⟩

/-- Whatever `select_progressive_audio` returns is an entry of the eligible
lookup. -/
theorem select_mem_lookup (info : ExtractInfo) (g : MediaFormat)
    (h : select_progressive_audio info = some g) :
    ∃ k, (k, g) ∈ buildFormatLookup info.formats := by
  rw [select_progressive_audio] at h
  cases h1 : pickPreferredItag (buildFormatLookup info.formats) PROGRESSIVE_ITAGS with
  | some f =>
    rw [h1] at h
    simp only [Option.some.injEq] at h
    exact pickPreferredItag_mem _ PROGRESSIVE_ITAGS g (h ▸ h1)
  | none =>
    rw [h1] at h
    cases h2 : pickAudioOnly (buildFormatLookup info.formats) with
    | some f =>
      rw [h2] at h
      simp only [Option.some.injEq] at h
      exact pickAudioOnly_mem _ g (h ▸ h2)
    | none =>
      rw [h2] at h
      cases h3 : (buildFormatLookup info.formats).head? with
      | some kv =>
        obtain ⟨k0, g0⟩ := kv
        rw [h3] at h
        simp only [Option.map_some', Option.some.injEq] at h
        subst h
        exact ⟨k0, List.mem_of_mem_head? h3⟩
      | none => rw [h3] at h; simp at h

/-- When the eligible lookup is empty, selection returns nothing. -/
theorem select_eq_none_of_lookup_nil (info : ExtractInfo)
    (h : buildFormatLookup info.formats = []) :
    select_progressive_audio info = none := by
  rw [select_progressive_audio, h]
  have hp : ∀ itags, pickPreferredItag [] itags = none := by
    intro itags
    induction itags with
    | nil => rfl
    | cons itag rest ih => rw [pickPreferredItag]; simpa [dictGet] using ih
  rw [hp PROGRESSIVE_ITAGS]
  rfl

/-- When the eligible lookup is nonempty, selection returns something. -/
theorem select_isSome_of_lookup_ne_nil (info : ExtractInfo)
    (h : buildFormatLookup info.formats ≠ []) :
    (select_progressive_audio info).isSome = true := by
  rw [select_progressive_audio]
  cases h1 : pickPreferredItag (buildFormatLookup info.formats) PROGRESSIVE_ITAGS with
  | some f => rfl
  | none =>
    cases h2 : pickAudioOnly (buildFormatLookup info.formats) with
    | some f => rfl
    | none =>
      cases h3 : (buildFormatLookup info.formats).head? with
      | some kv => simp
      | none => exact absurd (List.head?_eq_none_iff.mp h3) h

/-- C3 amended: the selector never returns a segmented-protocol candidate
(everything it returns has protocol `https`), and it returns a selection
exactly when the candidate set contains a protocol-eligible, audio-bearing
entry that also carries a URL (`formatEligible`); with zero such entries it
returns no selection. -/
theorem selector_exact_eligibility (info : ExtractInfo) :
    ((select_progressive_audio info).isSome = true ↔
      ∃ f ∈ info.formats, formatEligible f = true) ∧
    (∀ g, select_progressive_audio info = some g →
      formatEligible g = true ∧ g.protocol = "https" ∧
      g.protocol ≠ "m3u8_native" ∧ g.protocol ≠ "m3u8" ∧
      specAudioBearing g = true) := by
  have hg : ∀ g, select_progressive_audio info = some g →
      formatEligible g = true ∧ g.protocol = "https" ∧
      g.protocol ≠ "m3u8_native" ∧ g.protocol ≠ "m3u8" ∧
      specAudioBearing g = true := by
    intro g h
    obtain ⟨k, hk⟩ := select_mem_lookup info g h
    have hel := (mem_buildFormatLookup info.formats (k, g) hk).2
    have hps : g.protocol = "https" := by
      have h2 := hel
      simp only [formatEligible, Bool.and_eq_true, decide_eq_true_eq] at h2
      exact h2.1.1.2
    refine ⟨hel, hps, by rw [hps]; decide, by rw [hps]; decide, ?_⟩
    have h3 := hel
    simp only [formatEligible, Bool.and_eq_true] at h3
    simp only [specAudioBearing, h3.1.2]
  refine ⟨⟨?_, ?_⟩, hg⟩
  · intro hsome
    obtain ⟨g, hgs⟩ := Option.isSome_iff_exists.mp hsome
    obtain ⟨k, hk⟩ := select_mem_lookup info g hgs
    have hm := mem_buildFormatLookup info.formats (k, g) hk
    exact ⟨g, hm.1, hm.2⟩
  · intro hex
    exact select_isSome_of_lookup_ne_nil info (buildFormatLookup_ne_nil info.formats hex)

/-- Witness for the amended C3 at a concrete candidate set with one
eligible format. -/
theorem selector_exact_eligibility_witness :
    select_progressive_audio c1Info = some c1Fmt ∧
    (formatEligible c1Fmt = true ∧ c1Fmt.protocol = "https" ∧
      c1Fmt.protocol ≠ "m3u8_native" ∧ c1Fmt.protocol ≠ "m3u8" ∧
      specAudioBearing c1Fmt = true) :=
  ⟨by decide, (selector_exact_eligibility c1Info).2 c1Fmt (by decide)⟩

/-- C9: among the eligible candidates, selection follows the fixed ordered
preference list 140, 251, 250, 249, 139 (first present wins), then falls
back to the first audio-only entry, then to the first entry with any audio:
the source selector coincides with the claim-worded `claimSelect` over the
eligible lookup. -/
theorem selection_matches_preference_order :
    PROGRESSIVE_ITAGS = ["140", "251", "250", "249", "139"] ∧
    ∀ info, select_progressive_audio info =
      claimSelect (buildFormatLookup info.formats) := by
  refine ⟨rfl, ?_⟩
  intro info
  have hpick : ∀ (lookup : List (String × MediaFormat)) (itags : List String),
      pickPreferredItag lookup itags =
        itags.findSome? (fun itag => dictGet lookup itag) := by
    intro lookup itags
    induction itags with
    | nil => rfl
    | cons itag rest ih =>
      rw [pickPreferredItag, List.findSome?_cons]
      cases dictGet lookup itag with
      | some f => rfl
      | none => exact ih
  have haudio : ∀ lookup : List (String × MediaFormat),
      pickAudioOnly lookup =
        (lookup.find? (fun kv => isAudioOnlyVcodec kv.2)).map Prod.snd := by
    intro lookup
    induction lookup with
    | nil => rfl
    | cons hd tl ih =>
      obtain ⟨k1, g⟩ := hd
      rw [pickAudioOnly, List.find?_cons]
      by_cases ha : isAudioOnlyVcodec g
      · simp only [ha, if_true, if_pos]
        rfl
      · have ha' : isAudioOnlyVcodec g = false := by
          simpa using ha
        simp only [ha', if_false, Bool.false_eq_true]
        exact ih
  rw [select_progressive_audio, claimSelect, hpick, haudio]

/-! ### LRU-cache lemmas -/

/-- Lookup skips a prefix in which the key is absent. -/
theorem dictGet_append_left_none {κ α : Type} [DecidableEq κ]
    (l d : List (κ × α)) (k : κ) (h : dictGet l k = none) :
    dictGet (l ++ d) k = dictGet d k := by
  induction l with
  | nil => rfl
  | cons hd tl ih =>
    obtain ⟨k1, v1⟩ := hd
    by_cases hk : k1 = k
    · rw [dictGet, if_pos hk] at h
      exact absurd h (by simp)
    · rw [dictGet, if_neg hk] at h
      rw [List.cons_append, dictGet, if_neg hk]
      exact ih h

/-- The last element of a list with one appended. -/
theorem getLast?_append_singleton {κ α : Type} (l : List (κ × α)) (x : κ × α) :
    (l ++ [x]).getLast? = some x := by
  induction l with
  | nil => rfl
  | cons hd tl ih =>
    rw [List.cons_append]
    cases htl : tl ++ [x] with
    | nil => simp at htl
    | cons y ys =>
      rw [List.getLast?_cons_cons, ← htl]
      exact ih

/-- Dropping the head keeps the last element of a two-or-longer list. -/
theorem getLast?_tail {κ α : Type} (l : List (κ × α)) (x : κ × α)
    (h : l.getLast? = some x) (hlen : 2 ≤ l.length) : l.tail.getLast? = some x := by
  cases l with
  | nil => simp at hlen
  | cons hd tl =>
    cases tl with
    | nil => simp at hlen
    | cons hd2 tl2 =>
      rw [List.getLast?_cons_cons] at h
      exact h

/-- A put always lands the binding in the most-recently-used (last)
position, for any positive capacity. -/
theorem lruSetItem_getLast {κ α : Type} [DecidableEq κ] (m : Nat) (hm : 0 < m)
    (c : List (κ × α)) (k : κ) (v : α) :
    (lruSetItem m c k v).getLast? = some (k, v) := by
  rw [lruSetItem]
  by_cases hp : (dictGet c k).isSome
  · simp only [hp, if_true]
    by_cases hlen : (eraseKey c k ++ [(k, v)]).length > m
    · rw [if_pos hlen]
      exact getLast?_tail _ _ (getLast?_append_singleton _ _) (by omega)
    · rw [if_neg hlen]
      exact getLast?_append_singleton _ _
  · simp only [hp, Bool.false_eq_true, if_false]
    by_cases hlen : (c ++ [(k, v)]).length > m
    · rw [if_pos hlen]
      exact getLast?_tail _ _ (getLast?_append_singleton _ _) (by omega)
    · rw [if_neg hlen]
      exact getLast?_append_singleton _ _

/-- Inserting a fresh key into a cache exactly at capacity evicts exactly
the first (oldest) entry and appends the new binding at the MRU end. -/
theorem lruSetItem_at_capacity {κ α : Type} [DecidableEq κ] (m : Nat)
    (c : List (κ × α)) (k : κ) (v : α)
    (hfresh : dictGet c k = none) (hlen : c.length = m) (hm : 0 < m) :
    lruSetItem m c k v = c.tail ++ [(k, v)] := by
  rw [lruSetItem]
  have hp : (dictGet c k).isSome = false := by rw [hfresh]; rfl
  simp only [hp, Bool.false_eq_true, if_false]
  have hlen2 : (c ++ [(k, v)]).length > m := by simp [hlen]
  rw [if_pos hlen2]
  cases c with
  | nil => simp at hlen; omega
  | cons hd tl => rfl

/-- Inserting a run of fresh, pairwise-distinct keys that fits within the
capacity simply appends the run. -/
theorem lruPutAll_fresh {κ α : Type} [DecidableEq κ] :
    ∀ (kvs : List (κ × α)) (c : List (κ × α)) (m : Nat),
      (∀ kv ∈ kvs, dictGet c kv.1 = none) → (kvs.map Prod.fst).Nodup →
      c.length + kvs.length ≤ m →
      lruPutAll m c kvs = c ++ kvs := by
  intro kvs
  induction kvs with
  | nil => intro c m _ _ _; simp [lruPutAll]
  | cons kv rest ih =>
    intro c m hfresh hnd hlen
    obtain ⟨k, v⟩ := kv
    have hstep : lruSetItem m c k v = c ++ [(k, v)] := by
      rw [lruSetItem]
      have hfk : dictGet c k = none := hfresh (k, v) (List.mem_cons_self _ _)
      have hp : (dictGet c k).isSome = false := by rw [hfk]; rfl
      simp only [hp, Bool.false_eq_true, if_false]
      have : ¬((c ++ [(k, v)]).length > m) := by
        simp only [List.length_append, List.length_singleton, List.length_cons,
          List.length_nil] at hlen ⊢
        omega
      rw [if_neg this]
    rw [lruPutAll, List.foldl_cons]
    have hrest : (rest.foldl (fun cc kv2 => lruSetItem m cc kv2.1 kv2.2)
        (lruSetItem m c k v)) = (c ++ [(k, v)]) ++ rest := by
      rw [hstep]
      have := ih (c ++ [(k, v)]) m ?_ ?_ ?_
      · simpa [lruPutAll] using this
      · intro kv2 hkv2
        rw [dictGet_append_left_none c _ _ (hfresh kv2 (List.mem_cons_of_mem _ hkv2))]
        have hne : k ≠ kv2.1 := by
          simp only [List.map_cons, List.nodup_cons, List.mem_map] at hnd
          intro he
          exact hnd.1 ⟨kv2, hkv2, he.symm⟩
        rw [dictGet, if_neg hne]
        rfl
      · simp only [List.map_cons, List.nodup_cons] at hnd
        exact hnd.2
      · simp only [List.length_append, List.length_singleton, List.length_cons,
          List.length_nil] at hlen ⊢
        omega
    rw [hrest, List.append_assoc]
    rfl

/-- The key strings of different lengths are pairwise distinct. -/
theorem keyOfLen_injective : Function.Injective keyOfLen := by
  intro mm nn h
  have hd : List.replicate mm 'a' = List.replicate nn 'a' := by
    have h2 := congrArg String.data h
    simpa [keyOfLen] using h2
  have hlen := congrArg List.length hd
  simpa using hlen

/-- C5 amended: the authorization cache has fixed capacity 300 and evicts
by the `OrderedDict` order — every put marks the key most-recently-used, a
fresh insert at capacity evicts exactly the first (oldest) entry, and K+1
distinct inserts into the empty cache leave exactly the last K with the
first-inserted evicted — but a successful read through `get_cached_url`
leaves the cache (hence the recency order) unchanged: only puts refresh
recency, not the engine's reads. -/
theorem lru_capacity_and_eviction :
    streamCacheMaxsize = 300 ∧
    (∀ (c : List (String × CachedURL)) (k : String) (v : CachedURL),
      (lruSetItem streamCacheMaxsize c k v).getLast? = some (k, v)) ∧
    (∀ (c : List (String × CachedURL)) (k : String) (v : CachedURL),
      dictGet c k = none → c.length = streamCacheMaxsize →
      lruSetItem streamCacheMaxsize c k v = c.tail ++ [(k, v)]) ∧
    (∀ kvs : List (String × CachedURL),
      kvs.length = streamCacheMaxsize + 1 → (kvs.map Prod.fst).Nodup →
      lruPutAll streamCacheMaxsize [] kvs = kvs.tail) ∧
    (∀ (now : Int) (c : List (String × CachedURL)) (k : String) (a : CachedURL),
      dictGet c k = some a → a.is_valid now = true →
      get_cached_url now c k = (some a, c)) := by
  refine ⟨rfl, ?_, ?_, ?_, ?_⟩
  · intro c k v
    exact lruSetItem_getLast streamCacheMaxsize (by decide) c k v
  · intro c k v hfresh hlen
    exact lruSetItem_at_capacity streamCacheMaxsize c k v hfresh hlen (by decide)
  · intro kvs hlen hnd
    have hsplit := List.take_append_drop streamCacheMaxsize kvs
    have hlt : (kvs.take streamCacheMaxsize).length = streamCacheMaxsize := by
      simp only [List.length_take]
      omega
    have hld : (kvs.drop streamCacheMaxsize).length = 1 := by
      simp only [List.length_drop, hlen]
      omega
    obtain ⟨last, hlast⟩ := List.length_eq_one.mp hld
    obtain ⟨lk, lv⟩ := last
    have hkeys : kvs.map Prod.fst =
        (kvs.take streamCacheMaxsize).map Prod.fst ++
          (kvs.drop streamCacheMaxsize).map Prod.fst := by
      rw [← List.map_append, hsplit]
    rw [hkeys] at hnd
    rcases List.nodup_append.mp hnd with ⟨hnda, hndb, hdisj⟩
    have hnotmem : lk ∉ (kvs.take streamCacheMaxsize).map Prod.fst := by
      intro hmem
      exact hdisj hmem (by simp [hlast])
    have hfresh : dictGet (kvs.take streamCacheMaxsize) lk = none :=
      dictGet_eq_none_of_not_mem _ lk hnotmem
    have htake : lruPutAll streamCacheMaxsize [] (kvs.take streamCacheMaxsize) =
        kvs.take streamCacheMaxsize := by
      have hf := lruPutAll_fresh (kvs.take streamCacheMaxsize) [] streamCacheMaxsize
        (fun kv _ => rfl) hnda (by simp [hlt])
      simpa using hf
    rw [← hsplit, hlast, lruPutAll, List.foldl_append]
    have hstep1 : (kvs.take streamCacheMaxsize).foldl
        (fun c kv => lruSetItem streamCacheMaxsize c kv.1 kv.2) [] =
        kvs.take streamCacheMaxsize := htake
    rw [hstep1, List.foldl_cons, List.foldl_nil]
    rw [lruSetItem_at_capacity streamCacheMaxsize _ lk lv hfresh hlt (by decide)]
    cases htk : kvs.take streamCacheMaxsize with
    | nil => rw [htk] at hlt; exact absurd hlt (by decide)
    | cons h0 t0 => rfl
  · intro now c k a hget hvalid
    rw [get_cached_url, hget]
    simp [hvalid]

/-- Witness for the amended C5: a 300-entry cache at capacity receiving a
fresh key, 301 distinct inserts into the empty cache, and an unchanged
cache after a successful read. -/
theorem lru_capacity_and_eviction_witness :
    (dictGet c5Cache300 (keyOfLen 300) = none ∧
      c5Cache300.length = streamCacheMaxsize ∧
      lruSetItem streamCacheMaxsize c5Cache300 (keyOfLen 300) c5ArtB =
        c5Cache300.tail ++ [(keyOfLen 300, c5ArtB)]) ∧
    (c5Kvs301.length = streamCacheMaxsize + 1 ∧
      (c5Kvs301.map Prod.fst).Nodup ∧
      lruPutAll streamCacheMaxsize [] c5Kvs301 = c5Kvs301.tail) ∧
    (dictGet c5Cache "b" = some c5ArtB ∧ c5ArtB.is_valid 0 = true ∧
      get_cached_url 0 c5Cache "b" = (some c5ArtB, c5Cache)) := by
  have hkeys : c5Cache300.map Prod.fst = (List.range 300).map keyOfLen := by
    simp [c5Cache300, List.map_map, Function.comp]
  have hfresh : dictGet c5Cache300 (keyOfLen 300) = none := by
    apply dictGet_eq_none_of_not_mem
    rw [hkeys]
    intro hmem
    obtain ⟨n, hn, he⟩ := List.mem_map.mp hmem
    have h2 := keyOfLen_injective he
    rw [List.mem_range] at hn
    omega
  have hlen : c5Cache300.length = streamCacheMaxsize := by
    simp [c5Cache300, streamCacheMaxsize]
  have hlen301 : c5Kvs301.length = streamCacheMaxsize + 1 := by
    simp [c5Kvs301, streamCacheMaxsize]
  have hnd : (c5Kvs301.map Prod.fst).Nodup := by
    have hk : c5Kvs301.map Prod.fst = (List.range 301).map keyOfLen := by
      simp [c5Kvs301, List.map_map, Function.comp]
    rw [hk]
    exact List.Nodup.map keyOfLen_injective (List.nodup_range 301)
  exact ⟨⟨hfresh, hlen,
      lru_capacity_and_eviction.2.2.1 c5Cache300 (keyOfLen 300) c5ArtB hfresh hlen⟩,
    ⟨hlen301, hnd, lru_capacity_and_eviction.2.2.2.1 c5Kvs301 hlen301 hnd⟩,
    ⟨by decide, by decide,
      lru_capacity_and_eviction.2.2.2.2 0 c5Cache "b" c5ArtB (by decide) (by decide)⟩⟩

/-! ### Engine-state lemmas for C6/C10 -/

/-- After an LRU put, looking up the written key finds the new value
(for any positive capacity and duplicate-free keys). -/
theorem dictGet_lruSetItem_self {κ α : Type} [DecidableEq κ] (m : Nat) (hm : 0 < m)
    (c : List (κ × α)) (k : κ) (v : α) (hnd : (c.map Prod.fst).Nodup) :
    dictGet (lruSetItem m c k v) k = some v := by
  have key : ∀ l0 : List (κ × α), dictGet l0 k = none →
      dictGet (if (l0 ++ [(k, v)]).length > m then (l0 ++ [(k, v)]).tail
        else l0 ++ [(k, v)]) k = some v := by
    intro l0 h0
    have h1 : dictGet (l0 ++ [(k, v)]) k = some v := by
      rw [dictGet_append_left_none _ _ _ h0, dictGet, if_pos rfl]
    by_cases hlen : (l0 ++ [(k, v)]).length > m
    · rw [if_pos hlen]
      cases l0 with
      | nil => simp at hlen; omega
      | cons hd tl =>
        obtain ⟨k1, v1⟩ := hd
        rw [dictGet] at h0
        by_cases hk1 : k1 = k
        · rw [if_pos hk1] at h0; exact absurd h0 (by simp)
        · rw [if_neg hk1] at h0
          rw [show (((k1, v1) :: tl) ++ [(k, v)]).tail = tl ++ [(k, v)] from rfl]
          rw [dictGet_append_left_none _ _ _ h0, dictGet, if_pos rfl]
    · rw [if_neg hlen]
      exact h1
  rw [lruSetItem]
  by_cases hp : (dictGet c k).isSome
  · simp only [hp, if_true]
    exact key (eraseKey c k) (dictGet_eraseKey_self c k hnd)
  · simp only [hp, Bool.false_eq_true, if_false]
    apply key c
    cases hg : dictGet c k with
    | none => rfl
    | some w => rw [hg] at hp; simp at hp

/-- A cache hit leaves the cache untouched, and repeats identically. -/
theorem get_cached_url_hit_frame (now : Int) (cache : List (String × CachedURL))
    (tid : String) (c : CachedURL) (cc : List (String × CachedURL))
    (h : get_cached_url now cache tid = (some c, cc)) :
    cc = cache ∧ get_cached_url now cc tid = (some c, cc) := by
  cases hg : dictGet cache tid with
  | none => simp [get_cached_url, hg] at h
  | some a =>
    by_cases hv : a.is_valid now = true
    · simp only [get_cached_url, hg, hv, if_true, Prod.mk.injEq,
        Option.some.injEq] at h
      obtain ⟨hca, hcc⟩ := h
      subst hcc
      subst hca
      refine ⟨rfl, ?_⟩
      simp only [get_cached_url, hg, hv, if_true]
    · simp [get_cached_url, hg, hv] at h

/-- A cache miss is stable: re-reading the cache a `get` left behind
still misses and changes nothing further. -/
theorem get_cached_url_miss_stable (now : Int) (cache : List (String × CachedURL))
    (tid : String) (hnd : (cache.map Prod.fst).Nodup)
    (hms : (get_cached_url now cache tid).1 = none) :
    get_cached_url now ((get_cached_url now cache tid).2) tid =
      (none, (get_cached_url now cache tid).2) := by
  cases hg : dictGet cache tid with
  | none => simp [get_cached_url, hg]
  | some a =>
    by_cases hv : a.is_valid now = true
    · simp [get_cached_url, hg, hv] at hms
    · simp [get_cached_url, hg, hv, dictGet_eraseKey_self cache tid hnd]

/-- C6 amended: a caller timeout always surfaces as the distinct
`TimeoutError`; a QUEUED extraction runs to completion and populates the
cache with the produced artifact no matter what happened to the waiting
caller's future (including cancellation by the caller's timeout); but an
URGENT extraction's continuation is cancelled by the timeout before the
cache write, so on an urgent timeout the caller gets the timeout error and
the cache receives nothing. -/
theorem timeout_cancels_wait_not_work :
    (∀ (slots : List (Nat × SlotVal)) (sid : Nat) (tid : String),
      awaitFuture slots sid true tid =
        some (.timeoutError ("Extraction for " ++ tid ++ " timed out"))) ∧
    (∀ (s : EngineState) (now : Int) (sid : Nat) (tid : String)
        (info : ExtractInfo) (f : MediaFormat) (u : String),
      (s.cache.map Prod.fst).Nodup →
      select_progressive_audio info = some f → f.url = some u → u ≠ "" →
      dictGet (do_extraction s now sid tid (.completed info)).cache tid =
        some (mkArtifact now info f u)) ∧
    (∀ (s : EngineState) (now : Int) (tid : String) (out : ExtOutcome),
      (s.cache.map Prod.fst).Nodup →
      (get_cached_url now s.cache tid).1 = none →
      (urgent_extract s now tid true out).1 =
          .timeoutErr ("Urgent extraction for " ++ tid ++ " timed out") ∧
        (urgent_extract s now tid true out).2.cache =
          (get_cached_url now s.cache tid).2) := by
  refine ⟨?_, ?_, ?_⟩
  · intro slots sid tid
    rw [awaitFuture, if_pos rfl]
  · intro s now sid tid info f u hnd hsel hurl hu
    have hstate : (do_extraction s now sid tid (.completed info)).cache =
        lruSetItem streamCacheMaxsize s.cache tid (mkArtifact now info f u) := by
      simp only [do_extraction, hsel, hurl]
      rw [if_neg hu]
    rw [hstate]
    exact dictGet_lruSetItem_self streamCacheMaxsize (by decide) s.cache tid _ hnd
  · intro s now tid out hnd hms
    cases h1 : get_cached_url now s.cache tid with
    | mk copt1 cache1 =>
      have hc1 : copt1 = none := by rw [h1] at hms; exact hms
      subst hc1
      have hstable := get_cached_url_miss_stable now s.cache tid hnd hms
      rw [h1] at hstable
      simp only [urgent_extract, h1, hstable, if_pos rfl]
      exact ⟨rfl, rfl⟩

/-- Witness for the amended C6: the timeout result at a concrete slot
table, a concrete queued extraction that caches its artifact, and a
concrete urgent timeout that caches nothing. -/
theorem timeout_cancels_wait_not_work_witness :
    awaitFuture [] 0 true "t" =
      some (.timeoutError ("Extraction for " ++ "t" ++ " timed out")) ∧
    ((initialEngine.cache.map Prod.fst).Nodup ∧
      select_progressive_audio c1Info = some c1Fmt ∧
      c1Fmt.url = some "https://cdn.example/a" ∧
      "https://cdn.example/a" ≠ "" ∧
      dictGet (do_extraction initialEngine 0 0 "t" (.completed c1Info)).cache "t" =
        some (mkArtifact 0 c1Info c1Fmt "https://cdn.example/a")) ∧
    ((get_cached_url 0 initialEngine.cache "t").1 = none ∧
      (urgent_extract initialEngine 0 "t" true (.failed "x")).1 =
        .timeoutErr ("Urgent extraction for " ++ "t" ++ " timed out") ∧
      (urgent_extract initialEngine 0 "t" true (.failed "x")).2.cache =
        (get_cached_url 0 initialEngine.cache "t").2) :=
  ⟨timeout_cancels_wait_not_work.1 [] 0 "t",
    ⟨by decide, by decide, by decide, by decide,
      timeout_cancels_wait_not_work.2.1 initialEngine 0 0 "t" c1Info c1Fmt
        "https://cdn.example/a" (by decide) (by decide) (by decide) (by decide)⟩,
    ⟨by decide,
      timeout_cancels_wait_not_work.2.2 initialEngine 0 "t" (.failed "x")
        (by decide) (by decide)⟩⟩

/-- C10: the urgent path leaves the background queue, the `pending_tasks`
dedup table and the slot table untouched (it never enqueues and never joins
or registers a pending slot), and its only shared-state effect is through
the authorization cache: the cache it leaves behind is exactly what the two
`get_cached_url` reads produce (including their lazy evictions), plus — on
success only — the one `LRUCache` put of the produced artifact. -/
theorem urgent_path_frame (s : EngineState) (now : Int) (tid : String)
    (timedOut : Bool) (out : ExtOutcome) :
    (urgent_extract s now tid timedOut out).2.pending = s.pending ∧
    (urgent_extract s now tid timedOut out).2.queueTasks = s.queueTasks ∧
    (urgent_extract s now tid timedOut out).2.slots = s.slots ∧
    (urgent_extract s now tid timedOut out).2.nextId = s.nextId ∧
    ((urgent_extract s now tid timedOut out).2.cache =
        (get_cached_url now ((get_cached_url now s.cache tid).2) tid).2 ∨
      ∃ a, (urgent_extract s now tid timedOut out).1 = .ok a ∧
        (urgent_extract s now tid timedOut out).2.cache =
          lruSetItem streamCacheMaxsize
            ((get_cached_url now ((get_cached_url now s.cache tid).2) tid).2) tid a) := by
  cases h1 : get_cached_url now s.cache tid with
  | mk copt1 cache1 =>
    cases copt1 with
    | some c =>
      obtain ⟨hframe, hrepeat⟩ := get_cached_url_hit_frame now s.cache tid c cache1 h1
      refine ⟨?_, ?_, ?_, ?_, Or.inl ?_⟩ <;> simp [urgent_extract, h1, hrepeat]
    | none =>
      cases h2 : get_cached_url now cache1 tid with
      | mk copt2 cache2 =>
        cases copt2 with
        | some c =>
          refine ⟨?_, ?_, ?_, ?_, Or.inl ?_⟩ <;> simp [urgent_extract, h1, h2]
        | none =>
          cases timedOut with
          | true =>
            refine ⟨?_, ?_, ?_, ?_, Or.inl ?_⟩ <;> simp [urgent_extract, h1, h2]
          | false =>
            cases out with
            | failed m =>
              refine ⟨?_, ?_, ?_, ?_, Or.inl ?_⟩ <;> simp [urgent_extract, h1, h2]
            | completed info =>
              cases hsel : select_progressive_audio info with
              | none =>
                refine ⟨?_, ?_, ?_, ?_, Or.inl ?_⟩ <;>
                  simp [urgent_extract, h1, h2, hsel]
              | some f =>
                cases hurl : f.url with
                | none =>
                  refine ⟨?_, ?_, ?_, ?_, Or.inl ?_⟩ <;>
                    simp [urgent_extract, h1, h2, hsel, hurl]
                | some u =>
                  by_cases hu : u = ""
                  · subst hu
                    refine ⟨?_, ?_, ?_, ?_, Or.inl ?_⟩ <;>
                      simp [urgent_extract, h1, h2, hsel, hurl]
                  · refine ⟨?_, ?_, ?_, ?_,
                      Or.inr ⟨mkArtifact now info f u, ?_, ?_⟩⟩ <;>
                      simp [urgent_extract, h1, h2, hsel, hurl, hu]

end Onyx
